import Mathlib

/-!
# goforage: the directory scanner and the per-file inactivity watcher

A shallow embedding of `forager.go`.

* `Scanner.ScanForFiles` is the scan loop.  What it reads from the outside
  (the context, the directory listings) is given by oracles indexed by the
  scan pass; what it does (listing, cache calls, starting a watcher, sleeping)
  is recorded in a trace, each entry with the cache as it is right after the
  action.  The loop has no bound in the source, so the embedding takes the
  number of passes it may run as fuel.
* `Scanner.watch` is the watcher goroutine.  What it reads at each poll
  (`os.Stat`, `ctx.Err()`, the clock) is given by an oracle indexed by the
  poll; the paths handed to the Forager are its result.
-/

namespace goforage

/-- A Go `error` value that is not nil, by its message. -/
abbrev Error := String

/-- Durations and instants are counted in nanoseconds. -/
def Second : Int := 1000000000

/-- The constant `DefaultFileInactivityCutoff = 5 * time.Second`. -/
def DefaultFileInactivityCutoff : Int := 5 * Second

/-- The part of `os.FileInfo` the program reads. -/
structure FileInfo where
  Name : String
  IsDir : Bool
  ModTime : Int
  deriving DecidableEq, Repr

/-- The caller's callback `func(ctx, fname)`; its body is outside the program,
so only the fact that it is there and the paths it is called with are kept. -/
structure Forager where
  id : Nat
  deriving DecidableEq, Repr

/-- The method set of a caller-supplied `FileCache` whose state has type `σ`.
`Add` gives the new state and the returned error (nil is `none`); `Contains`
gives the new state, the boolean and the returned error. -/
structure FileCacheImpl (σ : Type) where
  Add : σ → String → σ × Option Error
  Contains : σ → String → σ × Bool × Option Error

/-- A value of the interface `FileCache`: the caller's cache, or the
`mapCache` of the package (`map[string]struct{}`, kept as the list of its keys). -/
inductive FileCache (σ : Type) where
  | custom (st : σ)
  | mapCache (m : List String)
  deriving DecidableEq, Repr

/-- The method `func (m mapCache) Add(s string) error`: `m[s] = struct{}{}`, returns nil. -/
def mapCache.Add (m : List String) (s : String) : List String × Option Error :=
  (m.insert s, none)

/-- The method `func (m mapCache) Contains(s string) (bool, error)`: `_, ok := m[s]`. -/
def mapCache.Contains (m : List String) (s : String) : List String × Bool × Option Error :=
  (m, decide (s ∈ m), none)

/-- The call `existingFiles.Add(fullPath)`, dispatched on the dynamic type. -/
def FileCache.Add {σ : Type} (I : FileCacheImpl σ) :
    FileCache σ → String → FileCache σ × Option Error
  | .custom st, s => ((FileCache.custom (I.Add st s).1), (I.Add st s).2)
  | .mapCache m, s => ((FileCache.mapCache (mapCache.Add m s).1), (mapCache.Add m s).2)

/-- The call `existingFiles.Contains(fullPath)`, dispatched on the dynamic type. -/
def FileCache.Contains {σ : Type} (I : FileCacheImpl σ) :
    FileCache σ → String → FileCache σ × Bool × Option Error
  | .custom st, s => ((FileCache.custom (I.Contains st s).1), (I.Contains st s).2)
  | .mapCache m, s => ((FileCache.mapCache (mapCache.Contains m s).1), (mapCache.Contains m s).2)

/-- The `Scanner` struct.  A nil `Forager` or `Cache` is `none`. -/
structure Scanner (σ : Type) where
  Forager : Option Forager
  Cache : Option σ
  FileInactvityCutoff : Int

/-- The value `ctx.Err()` has at the head of each scan pass (nil is `none`). -/
abbrev Context := Nat → Option Error

/-- The context `context.Background()`: never cancelled. -/
def Background : Context := fun _ => none

/-- The library and the file system as the scan loop sees them: `path.Join`,
and the result of `ioutil.ReadDir(dir)` in each scan pass. -/
structure OS where
  Join : String → String → String
  ReadDir : String → Nat → Except Error (List FileInfo)

/-- What the scan loop does. -/
inductive Event where
  | readDir (dir : String)
  | contains (path : String)
  | add (path : String)
  | watch (path : String)
  | sleep
  deriving DecidableEq, Repr

/-- One action of the scan loop, with the cache as it is right after it. -/
structure Step (σ : Type) where
  ev : Event
  cache : FileCache σ
  deriving DecidableEq, Repr

/-- The `for _, finfo := range finfos` loop of one scan pass: the actions
taken, the cache afterwards, and the error it returns with, if any. -/
def scanEntries {σ : Type} (I : FileCacheImpl σ) (os : OS) (scanDir : String) :
    List FileInfo → FileCache σ → List (Step σ) × FileCache σ × Option Error
  | [], c => ([], c, none)
  | finfo :: rest, c =>
    if finfo.IsDir then scanEntries I os scanDir rest c
    else
      let fullPath := os.Join scanDir finfo.Name
      let r := c.Contains I fullPath
      match r.2.2 with
      | some err => ([⟨Event.contains fullPath, r.1⟩], r.1, some err)
      | none =>
        if r.2.1 then
          let t := scanEntries I os scanDir rest r.1
          (⟨Event.contains fullPath, r.1⟩ :: t.1, t.2)
        else
          let c2 := (r.1.Add I fullPath).1
          let t := scanEntries I os scanDir rest c2
          (⟨Event.contains fullPath, r.1⟩ :: ⟨Event.add fullPath, c2⟩ ::
            ⟨Event.watch fullPath, c2⟩ :: t.1, t.2)

/-- How a call of `ScanForFiles` stands: `ret` is the error it returned
(`none` while the loop is still running, when the fuel ends), `trace` what it
has done so far, `cache` the cache at that point. -/
structure ScanResult (σ : Type) where
  ret : Option Error
  trace : List (Step σ)
  cache : FileCache σ

/-- The loop `for ctx.Err() == nil { ... }` followed by `return ctx.Err()`,
from scan pass `pass` on, for at most `fuel` passes. -/
def scanLoop {σ : Type} (I : FileCacheImpl σ) (os : OS) (ctx : Context) (scanDir : String) :
    Nat → Nat → FileCache σ → List (Step σ) → ScanResult σ
  | 0, _, c, tr => ⟨none, tr, c⟩
  | fuel + 1, pass, c, tr =>
    match ctx pass with
    | some err => ⟨some err, tr, c⟩
    | none =>
      match os.ReadDir scanDir pass with
      | .error err => ⟨some err, tr ++ [⟨Event.readDir scanDir, c⟩], c⟩
      | .ok finfos =>
        let t := scanEntries I os scanDir finfos c
        match t.2.2 with
        | some err => ⟨some err, tr ++ ⟨Event.readDir scanDir, c⟩ :: t.1, t.2.1⟩
        | none =>
          scanLoop I os ctx scanDir fuel (pass + 1) t.2.1
            (tr ++ ⟨Event.readDir scanDir, c⟩ :: t.1 ++ [⟨Event.sleep, t.2.1⟩])

/-- The cache the scan works on: `s.Cache`, or a fresh `mapCache{}` when it is nil. -/
def Scanner.existingFiles {σ : Type} (s : Scanner σ) : FileCache σ :=
  match s.Cache with
  | some st => FileCache.custom st
  | none => FileCache.mapCache []

/-- The statement `if ctx == nil { ctx = context.Background() }`. -/
def orBackground (ctx : Option Context) : Context :=
  match ctx with
  | some c => c
  | none => Background

/-- The method `func (s Scanner) ScanForFiles(ctx context.Context, scanDir string) error`,
run for at most `fuel` scan passes.  When the Forager is nil it returns before
the loop, and `cache` is the cache as the caller gave it. -/
def Scanner.ScanForFiles {σ : Type} (I : FileCacheImpl σ) (s : Scanner σ) (os : OS)
    (ctx : Option Context) (scanDir : String) (fuel : Nat) : ScanResult σ :=
  match s.Forager with
  | none => ⟨some "Forager is required", [], s.existingFiles⟩
  | some _ => scanLoop I os (orBackground ctx) scanDir fuel 0 s.existingFiles []

/-- What a watcher reads at one poll: the result of `os.Stat(fname)`, the value
of `ctx.Err()`, and the clock `time.Since` reads. -/
structure Poll where
  stat : Except Error FileInfo
  ctxErr : Option Error
  now : Int

/-- The largest `time.Duration`, `1<<63 - 1` nanoseconds (about 292 years). -/
def maxDuration : Int := 9223372036854775807

/-- The smallest `time.Duration`, `-1 << 63` nanoseconds. -/
def minDuration : Int := -9223372036854775808

/-- The call `time.Since(t)`, which is `time.Now().Sub(t)`: the time elapsed
from `t` to `now` as a `time.Duration`, that is the difference of the two
instants, or the largest (smallest) duration when the difference is above
(below) what a `time.Duration` holds. -/
def timeSince (now t : Int) : Int :=
  if now - t > maxDuration then maxDuration
  else if now - t < minDuration then minDuration
  else now - t

/-- How a watcher stands: `done` once it has returned, `foraged` the paths it
called the Forager with, `polls` the number of `os.Stat` calls it made. -/
structure WatchResult where
  done : Bool
  foraged : List String
  polls : Nat
  deriving DecidableEq, Repr

/-- The `for { ... }` loop of `watch` and the call `forager(ctx, fname)` after
it, from poll `k` on, for at most `fuel` polls. -/
def watchLoop (cutoff : Int) (fname : String) (polls : Nat → Poll) : Nat → Nat → WatchResult
  | 0, k => ⟨false, [], k⟩
  | fuel + 1, k =>
    match (polls k).stat with
    | .error _ => ⟨true, [], k + 1⟩
    | .ok finfo =>
      if (polls k).ctxErr ≠ none then ⟨true, [], k + 1⟩
      else if timeSince (polls k).now finfo.ModTime > cutoff then ⟨true, [fname], k + 1⟩
      else watchLoop cutoff fname polls fuel (k + 1)

/-- The local `fileInactivityCutoff` of `watch`: the configured cutoff, or the
default when that is `<= 0`. -/
def Scanner.fileInactivityCutoff {σ : Type} (s : Scanner σ) : Int :=
  if s.FileInactvityCutoff ≤ 0 then DefaultFileInactivityCutoff else s.FileInactvityCutoff

/-- The method `func (s Scanner) watch(ctx context.Context, forager Forager, fname string)`,
run for at most `fuel` polls. -/
def Scanner.watch {σ : Type} (s : Scanner σ) (fname : String) (polls : Nat → Poll)
    (fuel : Nat) : WatchResult :=
  watchLoop s.fileInactivityCutoff fname polls fuel 0

/-- The paths for which the scan executed `go s.watch(ctx, forager, fullPath)`, in order. -/
def spawned {σ : Type} (tr : List (Step σ)) : List String :=
  tr.filterMap fun st => match st.ev with
    | Event.watch p => some p
    | _ => none

/-- All Forager calls of a run: the watchers the scan started, the `n`-th of
them reading the polls `polls n` and running for at most `fuel n` polls. -/
def foragerCalls {σ : Type} (s : Scanner σ) (polls : Nat → Nat → Poll) (fuel : Nat → Nat) :
    Nat → List String → List String
  | _, [] => []
  | n, p :: ps => (s.watch p (polls n) (fuel n)).foraged ++ foragerCalls s polls fuel (n + 1) ps

/-- The paths the scan passed to `Contains`, in order. -/
def queried {σ : Type} (tr : List (Step σ)) : List String :=
  tr.filterMap fun st => match st.ev with
    | Event.contains p => some p
    | _ => none

/-- The new files of a listing, told apart from the program: going through the
entries in order, an entry is new when it is not a directory and `Contains`
answers false for its full path; a new path is registered with `Add` before
the next entry is looked at.  The result is the full paths of the new files,
in the order of the listing. -/
def newFiles {σ : Type} (I : FileCacheImpl σ) (os : OS) (scanDir : String) :
    List FileInfo → FileCache σ → List String
  | [], _ => []
  | f :: rest, c =>
    if f.IsDir then newFiles I os scanDir rest c
    else if (c.Contains I (os.Join scanDir f.Name)).2.1 then
      newFiles I os scanDir rest (c.Contains I (os.Join scanDir f.Name)).1
    else
      os.Join scanDir f.Name ::
        newFiles I os scanDir rest
          ((c.Contains I (os.Join scanDir f.Name)).1.Add I (os.Join scanDir f.Name)).1

/-- The same file system with the directories taken out of every listing. -/
def OS.withoutDirs (os : OS) : OS :=
  ⟨os.Join, fun d i =>
    match os.ReadDir d i with
    | .ok l => .ok (l.filter fun f => !f.IsDir)
    | .error e => .error e⟩

/-! ## The idealised clock -/

/-- The modification time a file shows at the instant `t`, when it was modified
at `m` and then at the instants `us`, given in increasing order: the last of
these instants that is not after `t`. -/
def mtimeAt : Int → List Int → Int → Int
  | m, [], _ => m
  | m, u :: us, t => if u ≤ t then mtimeAt u us t else m

/-- The last modification among `m` and then `us`. -/
def lastModified (m : Int) (us : List Int) : Int := us.getLastD m

/-- What a watcher reads on the idealised clock: the first poll is at `t0`, the
polls are exactly one second apart, the file stays readable and shows the
modification time of the instant, and the context is not cancelled. -/
def idealPolls (name : String) (t0 m : Int) (us : List Int) : Nat → Poll :=
  fun k => ⟨.ok ⟨name, false, mtimeAt m us (t0 + k * Second)⟩, none, t0 + k * Second⟩

/-! ## Concrete inputs -/

/-- A scanner with a Forager, the default cache and a cutoff of two seconds. -/
def exScanner : Scanner Unit := ⟨some ⟨0⟩, none, 2 * Second⟩

/-- Polls one second apart of a file last modified at the first poll. -/
def exPolls : Nat → Poll := fun k => ⟨.ok ⟨"a.jpg", false, 0⟩, none, k * Second⟩

/-- Two good polls, then the file is gone, the context cancelled and the clock far ahead. -/
def exPollsGone : Nat → Poll := fun k =>
  if k < 2 then ⟨.ok ⟨"a.jpg", false, 0⟩, none, k * Second⟩
  else ⟨.error "no such file", some "context canceled", 100 * Second⟩

/-- A scanner whose cutoff is the largest duration, `math.MaxInt64` nanoseconds. -/
def exScannerMax : Scanner Unit := ⟨some ⟨0⟩, none, 9223372036854775807⟩

/-- Polls one second apart, from an instant in 2023 on, of a file last
modified about 307 years before (instants in nanoseconds from 1970). -/
def exPollsOld : Nat → Poll := fun k =>
  ⟨.ok ⟨"a.jpg", false, -8000000000000000000⟩, none, 1700000000000000000 + k * Second⟩

/-- A directory with the files `a.jpg` and `b.jpg`, listed the same in every pass. -/
def exOS : OS :=
  ⟨fun d n => d ++ "/" ++ n, fun _ _ => .ok [⟨"a.jpg", false, 0⟩, ⟨"b.jpg", false, 0⟩]⟩

/-- A directory whose listing works in the first pass and fails in the second. -/
def exOSListFails : OS :=
  ⟨fun d n => d ++ "/" ++ n, fun _ i =>
    if i = 0 then .ok [⟨"a.jpg", false, 0⟩, ⟨"sub", true, 0⟩] else .error "permission denied"⟩

/-- A caller's cache without state whose `Contains` fails for `d/b.jpg` and
knows no other path. -/
def exCacheContainsFails : FileCacheImpl Unit :=
  ⟨fun _ _ => ((), none),
   fun _ p => if p = "d/b.jpg" then ((), false, some "cache is down") else ((), false, none)⟩

/-- A caller's cache without state that knows no path and whose `Add` always fails. -/
def exCacheAddFails : FileCacheImpl Unit :=
  ⟨fun _ _ => ((), some "cache is full"), fun _ _ => ((), false, none)⟩

/-- A caller's cache that keeps the list of the paths added, whose `Contains`
fails for `d/b.jpg`. -/
def exCacheList : FileCacheImpl (List String) :=
  ⟨fun st p => (p :: st, none),
   fun st p => if p = "d/b.jpg" then (st, false, some "cache is down")
     else (st, decide (p ∈ st), none)⟩

/-- A scanner with a Forager and a caller's cache that knows `d/k.jpg`. -/
def exScannerKnown : Scanner (List String) := ⟨some ⟨0⟩, some ["d/k.jpg"], 2 * Second⟩

/-- A directory with a sub-directory and the files `k.jpg`, `a.jpg`, `b.jpg`, `c.jpg`. -/
def exOSKnown : OS :=
  ⟨fun d n => d ++ "/" ++ n, fun _ _ => .ok [⟨"sub", true, 0⟩, ⟨"k.jpg", false, 0⟩,
    ⟨"a.jpg", false, 0⟩, ⟨"b.jpg", false, 0⟩, ⟨"c.jpg", false, 0⟩]⟩

/-- A scanner with a Forager and a caller's cache. -/
def exScannerCustom : Scanner Unit := ⟨some ⟨0⟩, some (), 2 * Second⟩

/-- A context cancelled from the second pass on. -/
def exCtx : Context := fun i => if i = 0 then none else some "context canceled"

/-- Watchers that find the context cancelled at their second poll, with the
file long settled by then. -/
def exPollsCancelled : Nat → Nat → Poll := fun _ k =>
  if k = 0 then ⟨.ok ⟨"a.jpg", false, 0⟩, none, 0⟩
  else ⟨.ok ⟨"a.jpg", false, 0⟩, some "context canceled", 100 * Second⟩

/-! ## The watcher -/

/-- No measured time is above the largest duration. -/
theorem timeSince_le_max (now t : Int) : timeSince now t ≤ maxDuration := by
  unfold timeSince maxDuration minDuration
  split
  · omega
  · split <;> omega

/-- Against a cutoff below the largest duration, the measured time and the
difference of the instants compare alike. -/
theorem timeSince_gt_iff (now t C : Int) (hlo : minDuration ≤ C) (hhi : C < maxDuration) :
    timeSince now t > C ↔ now - t > C := by
  unfold timeSince
  unfold maxDuration minDuration at *
  split
  · constructor <;> intro <;> omega
  · split
    · constructor <;> intro <;> omega
    · exact Iff.rfl

/-- A difference of instants within the cutoff is measured within the cutoff. -/
theorem timeSince_le_of_sub_le (now t C : Int) (hlo : minDuration ≤ C) (h : now - t ≤ C) :
    timeSince now t ≤ C := by
  unfold timeSince
  unfold maxDuration minDuration at *
  split
  · omega
  · split <;> omega

/-- The cutoff written out is the cutoff of `watch`, and it is positive. -/
theorem cutoff_pos (c : Int) : 0 < (if 0 < c then c else 5 * 1000000000) := by
  split <;> omega

/-- The cutoff `watch` works with. -/
theorem watch_eq_watchLoop {σ : Type} (s : Scanner σ) (fname : String) (polls : Nat → Poll)
    (fuel : Nat) :
    s.watch fname polls fuel =
      watchLoop (if 0 < s.FileInactvityCutoff then s.FileInactvityCutoff else 5 * 1000000000)
        fname polls fuel 0 := by
  unfold Scanner.watch Scanner.fileInactivityCutoff DefaultFileInactivityCutoff Second
  by_cases h : 0 < s.FileInactvityCutoff
  · have h2 : ¬ s.FileInactvityCutoff ≤ 0 := by omega
    simp [h, h2]
  · have h2 : s.FileInactvityCutoff ≤ 0 := by omega
    simp [h, h2]

/-- Polls at which the file is read, the context is live and the file is not
older than the cutoff are passed over. -/
theorem watchLoop_skip (cutoff : Int) (fname : String) (polls : Nat → Poll) :
    ∀ (n fuel k : Nat),
      (∀ j, j < n → ∃ fi, (polls (k + j)).stat = .ok fi ∧ (polls (k + j)).ctxErr = none ∧
        timeSince (polls (k + j)).now fi.ModTime ≤ cutoff) →
      watchLoop cutoff fname polls (n + fuel) k = watchLoop cutoff fname polls fuel (k + n) := by
  intro n
  induction n with
  | zero => intro fuel k _; simp
  | succ n ih =>
    intro fuel k h
    obtain ⟨fi, h1, h2, h3⟩ := h 0 (Nat.succ_pos n)
    simp only [Nat.add_zero] at h1 h2 h3
    have hfuel : n + 1 + fuel = (n + fuel) + 1 := by omega
    rw [hfuel, watchLoop, h1]
    have h4 : ¬ (timeSince (polls k).now fi.ModTime > cutoff) := not_lt.mpr h3
    simp only [h2, h4, ne_eq, not_true_eq_false, if_false]
    rw [ih fuel (k + 1)]
    · congr 1; omega
    · intro j hj
      have := h (j + 1) (by omega)
      have e : k + (j + 1) = k + 1 + j := by omega
      rw [e] at this
      exact this

/-- A watcher calls the Forager with its own path, at most once. -/
theorem watchLoop_foraged (cutoff : Int) (fname : String) (polls : Nat → Poll) :
    ∀ (fuel k : Nat), (watchLoop cutoff fname polls fuel k).foraged = [] ∨
      (watchLoop cutoff fname polls fuel k).foraged = [fname] := by
  intro fuel
  induction fuel with
  | zero => intro k; simp [watchLoop]
  | succ fuel ih =>
    intro k
    rw [watchLoop]
    split
    · simp
    · split
      · simp
      · split
        · simp
        · exact ih (k + 1)

/-- If no poll before `k + n` finds the file settled and the poll `k + n` fails
to read the file or finds the context cancelled, the watcher started at poll
`k` ends without a Forager call. -/
theorem watchLoop_stops (cutoff : Int) (fname : String) (polls : Nat → Poll) :
    ∀ (n k : Nat),
      (∀ j, j < n → ∀ fi, (polls (k + j)).stat = .ok fi → (polls (k + j)).ctxErr = none →
        timeSince (polls (k + j)).now fi.ModTime ≤ cutoff) →
      ((∃ e, (polls (k + n)).stat = .error e) ∨ (polls (k + n)).ctxErr ≠ none) →
      ∀ fuel, (watchLoop cutoff fname polls fuel k).foraged = [] ∧
        (n < fuel → (watchLoop cutoff fname polls fuel k).done = true ∧
          (watchLoop cutoff fname polls fuel k).polls ≤ k + n + 1) := by
  intro n
  induction n with
  | zero =>
    intro k _ hstop fuel
    cases fuel with
    | zero => simp [watchLoop]
    | succ fuel =>
      rw [watchLoop]
      simp only [Nat.add_zero] at hstop
      rcases hstop with ⟨e, he⟩ | hc
      · rw [he]; simp
      · split
        · simp
        · simp [hc]
  | succ n ih =>
    intro k hpre hstop fuel
    cases fuel with
    | zero => simp [watchLoop]
    | succ fuel =>
      have hrec := ih (k + 1)
        (fun j hj fi h1 h2 => by
          have := hpre (j + 1) (by omega) fi
          have e : k + (j + 1) = k + 1 + j := by omega
          rw [e] at this
          exact this h1 h2)
        (by
          have e : k + (n + 1) = k + 1 + n := by omega
          rw [e] at hstop
          exact hstop) fuel
      rw [watchLoop]
      split
      · simp
      · rename_i fi hfi
        by_cases hc : (polls k).ctxErr = none
        · have h3 := hpre 0 (Nat.succ_pos n) fi hfi hc
          simp only [Nat.add_zero] at h3
          have h4 : ¬ (timeSince (polls k).now fi.ModTime > cutoff) := not_lt.mpr h3
          simp only [hc, h4, ne_eq, not_true_eq_false, if_false]
          refine ⟨hrec.1, fun hlt => ?_⟩
          have := hrec.2 (by omega)
          exact ⟨this.1, by omega⟩
        · simp [hc]

/-- A watcher that still has fuel makes the next poll. -/
theorem watchLoop_polls (cutoff : Int) (fname : String) (polls : Nat → Poll) :
    ∀ (fuel k : Nat), k + 1 ≤ (watchLoop cutoff fname polls (fuel + 1) k).polls := by
  intro fuel
  induction fuel with
  | zero =>
    intro k
    rw [watchLoop]
    split
    · simp
    · split
      · simp
      · split
        · simp
        · simp [watchLoop]
  | succ fuel ih =>
    intro k
    rw [watchLoop]
    split
    · simp
    · split
      · simp
      · split
        · simp
        · have := ih (k + 1)
          omega

/-- Every Forager call of a run is for a path a watcher was started for, and
there are no more calls for a path than watchers started for it. -/
theorem foragerCalls_count {σ : Type} (s : Scanner σ) (polls : Nat → Nat → Poll)
    (fuel : Nat → Nat) (p : String) :
    ∀ (ps : List String) (n : Nat), (foragerCalls s polls fuel n ps).count p ≤ ps.count p := by
  intro ps
  induction ps with
  | nil => intro n; simp [foragerCalls]
  | cons q ps ih =>
    intro n
    rw [foragerCalls, List.count_append, List.count_cons]
    have h1 := ih (n + 1)
    have h2 : ((s.watch q (polls n) (fuel n)).foraged).count p ≤ if q = p then 1 else 0 := by
      rw [watch_eq_watchLoop]
      rcases watchLoop_foraged _ q (polls n) (fuel n) 0 with h | h
      · rw [h]; simp
      · rw [h]
        by_cases hq : q = p
        · simp [hq]
        · simp [List.count_cons, hq]
    have h3 : (if (q == p) = true then 1 else 0) = (if q = p then 1 else 0) := by
      by_cases hq : q = p <;> simp [hq]
    omega

/-! ## C2, C6: the watcher at one poll -/

/-- C2, as the code has it: the elapsed time is `time.Since(ModTime)`, the
difference `now - ModTime` held in a `time.Duration`, which stops at the
largest duration.  Let `k` be a poll the watcher makes (every earlier poll
read the file, found the context live and the elapsed time within the cutoff),
at which the read succeeds and the context is not cancelled.  If the elapsed
time is above the cutoff, the watcher stops there and the Forager is called
exactly once, with the watched path; if it is within the cutoff (equality
included) the Forager is not called at that poll and the watcher polls again.
For a cutoff below the largest duration the elapsed time is above the cutoff
exactly when `now - ModTime` is.  The cutoff is `FileInactvityCutoff` when that
is positive and 5 seconds otherwise. -/
theorem watch_settles_or_polls_again {σ : Type} (s : Scanner σ) (fname : String)
    (polls : Nat → Poll) (k : Nat) (fi : FileInfo)
    (hreach : ∀ j, j < k → ∃ fj, (polls j).stat = .ok fj ∧ (polls j).ctxErr = none ∧
      timeSince (polls j).now fj.ModTime ≤
        (if 0 < s.FileInactvityCutoff then s.FileInactvityCutoff else 5 * 1000000000))
    (hstat : (polls k).stat = .ok fi) (hctx : (polls k).ctxErr = none) :
    (timeSince (polls k).now fi.ModTime >
        (if 0 < s.FileInactvityCutoff then s.FileInactvityCutoff else 5 * 1000000000) →
      ∀ fuel, k < fuel → s.watch fname polls fuel = ⟨true, [fname], k + 1⟩) ∧
    (timeSince (polls k).now fi.ModTime ≤
        (if 0 < s.FileInactvityCutoff then s.FileInactvityCutoff else 5 * 1000000000) →
      s.watch fname polls (k + 1) = ⟨false, [], k + 1⟩ ∧
      ∀ fuel, k + 1 < fuel → k + 2 ≤ (s.watch fname polls fuel).polls) ∧
    ((if 0 < s.FileInactvityCutoff then s.FileInactvityCutoff else 5 * 1000000000) <
        9223372036854775807 →
      ∀ now t : Int,
        (timeSince now t >
            (if 0 < s.FileInactvityCutoff then s.FileInactvityCutoff else 5 * 1000000000) ↔
          now - t >
            (if 0 < s.FileInactvityCutoff then s.FileInactvityCutoff else 5 * 1000000000))) := by
  simp only [watch_eq_watchLoop]
  have hC := cutoff_pos s.FileInactvityCutoff
  generalize (if 0 < s.FileInactvityCutoff then s.FileInactvityCutoff else 5 * 1000000000) = C
    at hreach hC ⊢
  have hskip := fun fuel => watchLoop_skip C fname polls k fuel 0 (by simpa using hreach)
  simp only [Nat.zero_add] at hskip
  refine ⟨?_, ?_, ?_⟩
  · intro hgt fuel hk
    obtain ⟨d, rfl⟩ : ∃ d, fuel = k + (d + 1) := ⟨fuel - k - 1, by omega⟩
    rw [hskip, watchLoop, hstat]
    simp only [hctx, hgt, ne_eq, not_true_eq_false, if_false, if_true]
  · intro hle
    have h4 : ¬ (timeSince (polls k).now fi.ModTime > C) := not_lt.mpr hle
    constructor
    · rw [hskip, watchLoop, hstat]
      simp only [hctx, h4, ne_eq, not_true_eq_false, if_false, watchLoop]
    · intro fuel hk
      obtain ⟨d, rfl⟩ : ∃ d, fuel = k + (d + 1 + 1) := ⟨fuel - k - 2, by omega⟩
      rw [hskip, watchLoop, hstat]
      simp only [hctx, h4, ne_eq, not_true_eq_false, if_false]
      have := watchLoop_polls C fname polls d (k + 1)
      omega
  · intro hb now t
    exact timeSince_gt_iff now t C (by unfold minDuration; omega) (by unfold maxDuration; omega)

/-- C6: if a read of the file's metadata fails at poll `k` (the first poll or
a later one) and no earlier poll found the file settled, the watcher never
calls the Forager, and it has returned once poll `k` is made, whatever the
context and the clock say and whatever modification times were read before. -/
theorem watch_read_failure_no_forage {σ : Type} (s : Scanner σ) (fname : String)
    (polls : Nat → Poll) (k : Nat) (e : Error)
    (hpre : ∀ j, j < k → ∀ fj, (polls j).stat = .ok fj → (polls j).ctxErr = none →
      (polls j).now - fj.ModTime ≤
        (if 0 < s.FileInactvityCutoff then s.FileInactvityCutoff else 5 * 1000000000))
    (hfail : (polls k).stat = .error e) :
    ∀ fuel, (s.watch fname polls fuel).foraged = [] ∧
      (k < fuel → (s.watch fname polls fuel).done = true ∧
        (s.watch fname polls fuel).polls ≤ k + 1) := by
  intro fuel
  simp only [watch_eq_watchLoop]
  have hC := cutoff_pos s.FileInactvityCutoff
  generalize (if 0 < s.FileInactvityCutoff then s.FileInactvityCutoff else 5 * 1000000000) = C
    at hpre hC ⊢
  have hpre2 : ∀ j, j < k → ∀ fj, (polls (0 + j)).stat = .ok fj → (polls (0 + j)).ctxErr = none →
      timeSince (polls (0 + j)).now fj.ModTime ≤ C := by
    intro j hj fj h1 h2
    rw [Nat.zero_add] at h1 h2 ⊢
    exact timeSince_le_of_sub_le _ _ C (by unfold minDuration; omega) (hpre j hj fj h1 h2)
  have := watchLoop_stops C fname polls k 0 hpre2 (Or.inl ⟨e, by simpa using hfail⟩) fuel
  simpa using this

/-- C2 at a cutoff of two seconds and a file modified at the first poll: the
polls after 0, 1 and 2 seconds keep polling, the poll after 3 seconds settles;
and 3 seconds measured are 3 seconds elapsed. -/
theorem watch_settles_or_polls_again_witness :
    exScanner.watch "d/a.jpg" exPolls 4 = ⟨true, ["d/a.jpg"], 4⟩ ∧
    exScanner.watch "d/a.jpg" exPolls 3 = ⟨false, [], 3⟩ ∧
    (timeSince (3 * Second) 0 > 2 * Second ↔ 3 * Second - 0 > 2 * Second) :=
  ⟨(watch_settles_or_polls_again exScanner "d/a.jpg" exPolls 3 ⟨"a.jpg", false, 0⟩
      (by intro j hj; interval_cases j <;> exact ⟨_, rfl, rfl, by decide⟩) rfl rfl).1
      (by decide) 4 (by decide),
   ((watch_settles_or_polls_again exScanner "d/a.jpg" exPolls 2 ⟨"a.jpg", false, 0⟩
      (by intro j hj; interval_cases j <;> exact ⟨_, rfl, rfl, by decide⟩) rfl rfl).2.1
      (by decide)).1,
   (watch_settles_or_polls_again exScanner "d/a.jpg" exPolls 0 ⟨"a.jpg", false, 0⟩
      (by intro j hj; omega) rfl rfl).2.2 (by decide) (3 * Second) 0⟩

/-- C2 as stated fails: the cutoff is the largest duration (`math.MaxInt64`)
and the file was modified more than 292 years before the polls.  At the first
poll the read succeeds, the context is live and `now - ModTime` is above the
cutoff, and yet the watcher does not call the Forager: it is still polling
after one poll and after five. -/
theorem watch_old_file_max_cutoff_keeps_polling :
    (exPollsOld 0).stat = .ok ⟨"a.jpg", false, -8000000000000000000⟩ ∧
    (exPollsOld 0).ctxErr = none ∧
    (exPollsOld 0).now - (-8000000000000000000) >
      (if 0 < exScannerMax.FileInactvityCutoff then exScannerMax.FileInactvityCutoff
        else 5 * 1000000000) ∧
    exScannerMax.watch "d/a.jpg" exPollsOld 1 = ⟨false, [], 1⟩ ∧
    exScannerMax.watch "d/a.jpg" exPollsOld 5 = ⟨false, [], 5⟩ :=
  ⟨rfl, by decide, by decide, by decide, by decide⟩

/-- C6 at a file that disappears at the third poll. -/
theorem watch_read_failure_no_forage_witness :
    (exScanner.watch "d/a.jpg" exPollsGone 7).foraged = [] ∧
    (exScanner.watch "d/a.jpg" exPollsGone 7).done = true :=
  ⟨(watch_read_failure_no_forage exScanner "d/a.jpg" exPollsGone 2 "no such file"
      (by intro j hj fj _ _; interval_cases j <;> simp_all [exPollsGone] <;> subst_vars <;> decide)
      rfl 7).1,
   ((watch_read_failure_no_forage exScanner "d/a.jpg" exPollsGone 2 "no such file"
      (by intro j hj fj _ _; interval_cases j <;> simp_all [exPollsGone] <;> subst_vars <;> decide)
      rfl 7).2 (by decide)).1⟩

/-! ## C9: the watcher on the idealised clock -/

/-- The cutoff the watcher works with is positive. -/
theorem fileInactivityCutoff_pos {σ : Type} (s : Scanner σ) : 0 < s.fileInactivityCutoff := by
  unfold Scanner.fileInactivityCutoff DefaultFileInactivityCutoff Second
  split <;> omega

/-- Modifications in increasing order: none is before the first. -/
theorem le_lastModified (C : Int) : ∀ (us : List Int) (m : Int),
    List.Chain (fun a b => a < b ∧ b - a < C) m us → m ≤ lastModified m us := by
  intro us
  induction us with
  | nil => intro m _; simp [lastModified]
  | cons u us ih =>
    intro m h
    rw [List.chain_cons] at h
    have := ih u h.2
    simp only [lastModified, List.getLastD_cons] at this ⊢
    omega

/-- From the last modification on, the file shows the last modification. -/
theorem mtimeAt_of_last_le (C : Int) : ∀ (us : List Int) (m t : Int),
    List.Chain (fun a b => a < b ∧ b - a < C) m us → lastModified m us ≤ t →
    mtimeAt m us t = lastModified m us := by
  intro us
  induction us with
  | nil => intro m t _ _; simp [mtimeAt, lastModified]
  | cons u us ih =>
    intro m t h ht
    rw [List.chain_cons] at h
    have h1 := le_lastModified C us u h.2
    simp only [lastModified, List.getLastD_cons] at ht h1 ⊢
    have hu : u ≤ t := by omega
    rw [mtimeAt, if_pos hu]
    exact ih u t h.2 ht

/-- While the modifications go on at intervals shorter than `C`, and up to `C`
after the last one, the file is never older than `C`. -/
theorem mtimeAt_age_le (C : Int) : ∀ (us : List Int) (m t : Int),
    List.Chain (fun a b => a < b ∧ b - a < C) m us → t - lastModified m us ≤ C →
    t - mtimeAt m us t ≤ C := by
  intro us
  induction us with
  | nil => intro m t _ ht; simpa [mtimeAt, lastModified] using ht
  | cons u us ih =>
    intro m t h ht
    rw [List.chain_cons] at h
    simp only [lastModified, List.getLastD_cons] at ht
    rw [mtimeAt]
    split
    · exact ih u t h.2 ht
    · omega

/-- A watcher whose cutoff is the largest duration or more never calls the Forager. -/
theorem watchLoop_never_settles (cutoff : Int) (fname : String) (polls : Nat → Poll)
    (h : maxDuration ≤ cutoff) :
    ∀ (fuel k : Nat), (watchLoop cutoff fname polls fuel k).foraged = [] := by
  intro fuel
  induction fuel with
  | zero => intro k; rfl
  | succ fuel ih =>
    intro k
    rw [watchLoop]
    split
    · rfl
    · rename_i fi _
      split
      · rfl
      · have h4 : ¬ (timeSince (polls k).now fi.ModTime > cutoff) := by
          have := timeSince_le_max (polls k).now fi.ModTime
          omega
        rw [if_neg h4]
        exact ih (k + 1)

/-- C9, as the code has it: a watcher with cutoff `C` below the largest
duration polls every second (`P`) a file that stays readable, under a context
that is not cancelled; the file is modified at `m` and then at the instants
`us`, each less than `C` after the one before, and the watcher is already
polling: its first poll, at `t0`, is not more than `C` after the last
modification.  Then the Forager is not called at any poll made while the
modifications go on (up to the last one), and it is called exactly once, at a
poll whose instant lies between `C` and `C + P` after the last modification,
and at no poll before that one. -/
theorem watch_on_ideal_clock {σ : Type} (s : Scanner σ) (fname name : String) (t0 m : Int)
    (us : List Int)
    (hbound : s.fileInactivityCutoff < 9223372036854775807)
    (hupd : List.Chain (fun a b => a < b ∧ b - a < s.fileInactivityCutoff) m us)
    (hfirst : t0 - lastModified m us ≤ s.fileInactivityCutoff) :
    (∀ k : Nat, t0 + k * Second ≤ lastModified m us →
      s.watch fname (idealPolls name t0 m us) (k + 1) = ⟨false, [], k + 1⟩) ∧
    (∃ K : Nat, s.fileInactivityCutoff ≤ t0 + K * Second - lastModified m us ∧
      t0 + K * Second - lastModified m us ≤ s.fileInactivityCutoff + Second ∧
      (∀ fuel, fuel ≤ K → s.watch fname (idealPolls name t0 m us) fuel = ⟨false, [], fuel⟩) ∧
      (∀ fuel, K < fuel →
        s.watch fname (idealPolls name t0 m us) fuel = ⟨true, [fname], K + 1⟩)) := by
  have hC := fileInactivityCutoff_pos s
  unfold Scanner.watch
  generalize s.fileInactivityCutoff = C at hbound hupd hfirst hC ⊢
  have hS : Second = 1000000000 := rfl
  have hlo : minDuration ≤ C := by unfold minDuration; omega
  have hhi : C < maxDuration := by unfold maxDuration; omega
  -- a poll not more than `C` after the last modification keeps the watcher polling
  have hcont : ∀ j : Nat, t0 + j * Second - lastModified m us ≤ C →
      ∃ fi, (idealPolls name t0 m us (0 + j)).stat = .ok fi ∧
        (idealPolls name t0 m us (0 + j)).ctxErr = none ∧
        timeSince (idealPolls name t0 m us (0 + j)).now fi.ModTime ≤ C := by
    intro j hj
    refine ⟨_, rfl, rfl, ?_⟩
    simp only [idealPolls, Nat.zero_add]
    exact timeSince_le_of_sub_le _ _ C hlo (mtimeAt_age_le C us m _ hupd hj)
  constructor
  · intro k hk
    have := watchLoop_skip C fname (idealPolls name t0 m us) (k + 1) 0 0
      (fun j hj => hcont j (by
        have : (j : Int) ≤ k := by exact_mod_cast Nat.lt_succ_iff.mp hj
        rw [hS] at hk ⊢
        omega))
    simpa [watchLoop] using this
  · have hex : ∃ K : Nat, C < t0 + K * Second - lastModified m us := by
      refine ⟨(C + lastModified m us - t0).toNat + 1, ?_⟩
      have := Int.self_le_toNat (C + lastModified m us - t0)
      rw [hS]
      push_cast
      omega
    have hK := Nat.find_spec hex
    have hmin : ∀ j : Nat, j < Nat.find hex → t0 + j * Second - lastModified m us ≤ C :=
      fun j hj => not_lt.mp (Nat.find_min hex hj)
    generalize Nat.find hex = K at hK hmin
    refine ⟨K, le_of_lt hK, ?_, ?_, ?_⟩
    · cases K with
      | zero => simp at hK; omega
      | succ K =>
        have := hmin K (Nat.lt_succ_self K)
        push_cast
        rw [hS] at this ⊢
        omega
    · intro fuel hf
      have := watchLoop_skip C fname (idealPolls name t0 m us) fuel 0 0
        (fun j hj => hcont j (hmin j (by omega)))
      simpa [watchLoop] using this
    · intro fuel hf
      obtain ⟨d, rfl⟩ : ∃ d, fuel = K + (d + 1) := ⟨fuel - K - 1, by omega⟩
      have := watchLoop_skip C fname (idealPolls name t0 m us) K (d + 1) 0
        (fun j hj => hcont j (hmin j hj))
      rw [this, Nat.zero_add, watchLoop]
      have hlast : lastModified m us ≤ t0 + K * Second := by omega
      have hm := mtimeAt_of_last_le C us m _ hupd hlast
      have h4 : timeSince (t0 + K * Second) (mtimeAt m us (t0 + K * Second)) > C := by
        rw [timeSince_gt_iff _ _ C hlo hhi, hm]; omega
      simp only [idealPolls, h4, ne_eq, not_true_eq_false, if_false, if_true]

/-- C9 at a cutoff of two seconds, a first poll at the instant 0, and a file
modified at 0, after 1.5 seconds and after 3 seconds: the polls up to the one
after 3 seconds keep polling, and the Forager is called exactly once, at a poll
between 2 and 3 seconds after the last modification, which is the poll after 6
seconds. -/
theorem watch_on_ideal_clock_witness :
    (exScanner.fileInactivityCutoff < 9223372036854775807 ∧
      List.Chain (fun a b => a < b ∧ b - a < exScanner.fileInactivityCutoff) 0
        [1500000000, 3000000000] ∧
      0 - lastModified 0 [1500000000, 3000000000] ≤ exScanner.fileInactivityCutoff) ∧
    ((∀ k : Nat, 0 + k * Second ≤ lastModified 0 [1500000000, 3000000000] →
      exScanner.watch "d/a.jpg" (idealPolls "a.jpg" 0 0 [1500000000, 3000000000]) (k + 1) =
        ⟨false, [], k + 1⟩) ∧
    (∃ K : Nat,
      exScanner.fileInactivityCutoff ≤
        0 + K * Second - lastModified 0 [1500000000, 3000000000] ∧
      0 + K * Second - lastModified 0 [1500000000, 3000000000] ≤
        exScanner.fileInactivityCutoff + Second ∧
      (∀ fuel, fuel ≤ K →
        exScanner.watch "d/a.jpg" (idealPolls "a.jpg" 0 0 [1500000000, 3000000000]) fuel =
          ⟨false, [], fuel⟩) ∧
      (∀ fuel, K < fuel →
        exScanner.watch "d/a.jpg" (idealPolls "a.jpg" 0 0 [1500000000, 3000000000]) fuel =
          ⟨true, ["d/a.jpg"], K + 1⟩))) ∧
    exScanner.watch "d/a.jpg" (idealPolls "a.jpg" 0 0 [1500000000, 3000000000]) 6 =
      ⟨false, [], 6⟩ ∧
    exScanner.watch "d/a.jpg" (idealPolls "a.jpg" 0 0 [1500000000, 3000000000]) 7 =
      ⟨true, ["d/a.jpg"], 7⟩ :=
  ⟨⟨by decide, List.Chain.cons ⟨by decide, by decide⟩
      (List.Chain.cons ⟨by decide, by decide⟩ List.Chain.nil), by decide⟩,
    watch_on_ideal_clock exScanner "d/a.jpg" "a.jpg" 0 0 [1500000000, 3000000000]
      (by decide)
      (List.Chain.cons ⟨by decide, by decide⟩
        (List.Chain.cons ⟨by decide, by decide⟩ List.Chain.nil))
      (by decide),
    by decide, by decide⟩

/-- C9 as stated fails: the cutoff `C` is the largest duration
(`math.MaxInt64`), the file is modified at the instant 0 and one and two
seconds later, at intervals shorter than `C`, and the watcher polls every
second from the instant 0 on.  The Forager is never called, at no poll:
`time.Since` never gives more than the largest duration. -/
theorem watch_on_ideal_clock_max_cutoff_never_forages :
    List.Chain (fun a b => a < b ∧ b - a < exScannerMax.fileInactivityCutoff) 0
      [1000000000, 2000000000] ∧
    0 - lastModified 0 [1000000000, 2000000000] ≤ exScannerMax.fileInactivityCutoff ∧
    ∀ fuel, (exScannerMax.watch "d/a.jpg"
      (idealPolls "a.jpg" 0 0 [1000000000, 2000000000]) fuel).foraged = [] :=
  ⟨List.Chain.cons ⟨by decide, by decide⟩
      (List.Chain.cons ⟨by decide, by decide⟩ List.Chain.nil),
    by decide, fun fuel => watchLoop_never_settles _ _ _ (by decide) fuel 0⟩

/-! ## One scan pass -/

/-- A directory entry is passed over. -/
theorem scanEntries_dir {σ : Type} (I : FileCacheImpl σ) (os : OS) (scanDir : String)
    (f : FileInfo) (rest : List FileInfo) (c : FileCache σ) (hd : f.IsDir = true) :
    scanEntries I os scanDir (f :: rest) c = scanEntries I os scanDir rest c := by
  rw [scanEntries, if_pos hd]

/-- A file entry at which `Contains` returns an error ends the pass. -/
theorem scanEntries_err {σ : Type} (I : FileCacheImpl σ) (os : OS) (scanDir : String)
    (f : FileInfo) (rest : List FileInfo) (c : FileCache σ) (hd : f.IsDir = false) (e : Error)
    (he : (c.Contains I (os.Join scanDir f.Name)).2.2 = some e) :
    scanEntries I os scanDir (f :: rest) c =
      ([⟨Event.contains (os.Join scanDir f.Name), (c.Contains I (os.Join scanDir f.Name)).1⟩],
        (c.Contains I (os.Join scanDir f.Name)).1, some e) := by
  rw [scanEntries]
  simp only [hd, he, Bool.false_eq_true, if_false]

/-- A file entry the cache knows is only queried. -/
theorem scanEntries_known {σ : Type} (I : FileCacheImpl σ) (os : OS) (scanDir : String)
    (f : FileInfo) (rest : List FileInfo) (c : FileCache σ) (hd : f.IsDir = false)
    (he : (c.Contains I (os.Join scanDir f.Name)).2.2 = none)
    (hk : (c.Contains I (os.Join scanDir f.Name)).2.1 = true) :
    scanEntries I os scanDir (f :: rest) c =
      (⟨Event.contains (os.Join scanDir f.Name), (c.Contains I (os.Join scanDir f.Name)).1⟩ ::
          (scanEntries I os scanDir rest (c.Contains I (os.Join scanDir f.Name)).1).1,
        (scanEntries I os scanDir rest (c.Contains I (os.Join scanDir f.Name)).1).2) := by
  rw [scanEntries]
  simp only [hd, he, hk, Bool.false_eq_true, if_false, if_true]

/-- A file entry the cache does not know is queried, added and given a watcher. -/
theorem scanEntries_new {σ : Type} (I : FileCacheImpl σ) (os : OS) (scanDir : String)
    (f : FileInfo) (rest : List FileInfo) (c : FileCache σ) (hd : f.IsDir = false)
    (he : (c.Contains I (os.Join scanDir f.Name)).2.2 = none)
    (hk : (c.Contains I (os.Join scanDir f.Name)).2.1 = false) :
    scanEntries I os scanDir (f :: rest) c =
      (⟨Event.contains (os.Join scanDir f.Name), (c.Contains I (os.Join scanDir f.Name)).1⟩ ::
          ⟨Event.add (os.Join scanDir f.Name),
            ((c.Contains I (os.Join scanDir f.Name)).1.Add I (os.Join scanDir f.Name)).1⟩ ::
          ⟨Event.watch (os.Join scanDir f.Name),
            ((c.Contains I (os.Join scanDir f.Name)).1.Add I (os.Join scanDir f.Name)).1⟩ ::
          (scanEntries I os scanDir rest
            ((c.Contains I (os.Join scanDir f.Name)).1.Add I (os.Join scanDir f.Name)).1).1,
        (scanEntries I os scanDir rest
            ((c.Contains I (os.Join scanDir f.Name)).1.Add I (os.Join scanDir f.Name)).1).2) := by
  rw [scanEntries]
  simp only [hd, he, hk, Bool.false_eq_true, if_false]

/-- The four ways a scan pass treats its first entry. -/
theorem scanEntries_cases {σ : Type} (I : FileCacheImpl σ) (os : OS) (scanDir : String)
    (f : FileInfo) (c : FileCache σ) :
    f.IsDir = true ∨
    (f.IsDir = false ∧ ∃ e, (c.Contains I (os.Join scanDir f.Name)).2.2 = some e) ∨
    (f.IsDir = false ∧ (c.Contains I (os.Join scanDir f.Name)).2.2 = none ∧
      (c.Contains I (os.Join scanDir f.Name)).2.1 = true) ∨
    (f.IsDir = false ∧ (c.Contains I (os.Join scanDir f.Name)).2.2 = none ∧
      (c.Contains I (os.Join scanDir f.Name)).2.1 = false) := by
  cases hd : f.IsDir
  · right
    cases he : (c.Contains I (os.Join scanDir f.Name)).2.2
    · right
      cases hk : (c.Contains I (os.Join scanDir f.Name)).2.1
      · exact Or.inr ⟨rfl, rfl, rfl⟩
      · exact Or.inl ⟨rfl, rfl, rfl⟩
    · exact Or.inl ⟨rfl, _, rfl⟩
  · exact Or.inl rfl

/-- Directory entries add nothing to a scan pass. -/
theorem scanEntries_filter {σ : Type} (I : FileCacheImpl σ) (os : OS) (scanDir : String) :
    ∀ (finfos : List FileInfo) (c : FileCache σ),
      scanEntries I os scanDir (finfos.filter fun f => !f.IsDir) c =
        scanEntries I os scanDir finfos c := by
  intro finfos
  induction finfos with
  | nil => intro c; rfl
  | cons f rest ih =>
    intro c
    rcases scanEntries_cases I os scanDir f c with hd | ⟨hd, e, he⟩ | ⟨hd, he, hk⟩ | ⟨hd, he, hk⟩
    · rw [List.filter_cons_of_neg (by simp [hd]), ih, scanEntries_dir I os scanDir f rest c hd]
    · rw [List.filter_cons_of_pos (by simp [hd]), scanEntries_err I os scanDir f rest c hd e he,
        scanEntries_err I os scanDir f _ c hd e he]
    · rw [List.filter_cons_of_pos (by simp [hd]), scanEntries_known I os scanDir f rest c hd he hk,
        scanEntries_known I os scanDir f _ c hd he hk, ih]
    · rw [List.filter_cons_of_pos (by simp [hd]), scanEntries_new I os scanDir f rest c hd he hk,
        scanEntries_new I os scanDir f _ c hd he hk, ih]

/-- A scan pass over `pre ++ rest` whose part over `pre` returns no error goes
on with `rest` from the cache `pre` left. -/
theorem scanEntries_append {σ : Type} (I : FileCacheImpl σ) (os : OS) (scanDir : String)
    (rest : List FileInfo) :
    ∀ (pre : List FileInfo) (c : FileCache σ),
      (scanEntries I os scanDir pre c).2.2 = none →
      scanEntries I os scanDir (pre ++ rest) c =
        ((scanEntries I os scanDir pre c).1 ++
            (scanEntries I os scanDir rest (scanEntries I os scanDir pre c).2.1).1,
          (scanEntries I os scanDir rest (scanEntries I os scanDir pre c).2.1).2) := by
  intro pre
  induction pre with
  | nil => intro c _; simp [scanEntries]
  | cons f pre ih =>
    intro c h
    rw [List.cons_append]
    rcases scanEntries_cases I os scanDir f c with hd | ⟨hd, e, he⟩ | ⟨hd, he, hk⟩ | ⟨hd, he, hk⟩
    · rw [scanEntries_dir I os scanDir f _ c hd] at h
      rw [scanEntries_dir I os scanDir f (pre ++ rest) c hd,
        scanEntries_dir I os scanDir f pre c hd]
      exact ih c h
    · rw [scanEntries_err I os scanDir f _ c hd e he] at h
      simp at h
    · rw [scanEntries_known I os scanDir f _ c hd he hk] at h
      rw [scanEntries_known I os scanDir f (pre ++ rest) c hd he hk,
        scanEntries_known I os scanDir f pre c hd he hk, ih _ h]
      rfl
    · rw [scanEntries_new I os scanDir f _ c hd he hk] at h
      rw [scanEntries_new I os scanDir f (pre ++ rest) c hd he hk,
        scanEntries_new I os scanDir f pre c hd he hk, ih _ h]
      rfl

/-- Every path a scan pass queries, adds or starts a watcher for is the scan
directory joined with the name of an entry of the listing that is not a directory. -/
theorem scanEntries_paths {σ : Type} (I : FileCacheImpl σ) (os : OS) (scanDir : String) :
    ∀ (finfos : List FileInfo) (c : FileCache σ) (st : Step σ) (p : String),
      st ∈ (scanEntries I os scanDir finfos c).1 →
      st.ev = Event.contains p ∨ st.ev = Event.add p ∨ st.ev = Event.watch p →
      ∃ f, f ∈ finfos ∧ f.IsDir = false ∧ p = os.Join scanDir f.Name := by
  intro finfos
  induction finfos with
  | nil => intro c st p h; simp [scanEntries] at h
  | cons f rest ih =>
    intro c st p h hp
    have hrest : ∀ c2, st ∈ (scanEntries I os scanDir rest c2).1 →
        ∃ g, g ∈ f :: rest ∧ g.IsDir = false ∧ p = os.Join scanDir g.Name := by
      intro c2 h2
      obtain ⟨g, hg, hg2⟩ := ih c2 st p h2 hp
      exact ⟨g, List.mem_cons_of_mem _ hg, hg2⟩
    have hhere : (st.ev = Event.contains (os.Join scanDir f.Name) ∨
        st.ev = Event.add (os.Join scanDir f.Name) ∨
        st.ev = Event.watch (os.Join scanDir f.Name)) → f.IsDir = false →
        ∃ g, g ∈ f :: rest ∧ g.IsDir = false ∧ p = os.Join scanDir g.Name := by
      intro h1 hd
      refine ⟨f, List.mem_cons_self _ _, hd, ?_⟩
      rcases h1 with h1 | h1 | h1 <;> rcases hp with hp | hp | hp <;> rw [h1] at hp <;>
        first
          | exact (Event.contains.inj hp).symm
          | exact (Event.add.inj hp).symm
          | exact (Event.watch.inj hp).symm
          | exact absurd hp (by simp)
    rcases scanEntries_cases I os scanDir f c with hd | ⟨hd, e, he⟩ | ⟨hd, he, hk⟩ | ⟨hd, he, hk⟩
    · rw [scanEntries_dir I os scanDir f _ c hd] at h
      exact hrest c h
    · rw [scanEntries_err I os scanDir f _ c hd e he] at h
      simp only [List.mem_singleton] at h
      exact hhere (Or.inl (by rw [h])) hd
    · rw [scanEntries_known I os scanDir f _ c hd he hk] at h
      simp only [List.mem_cons] at h
      rcases h with h | h
      · exact hhere (Or.inl (by rw [h])) hd
      · exact hrest _ h
    · rw [scanEntries_new I os scanDir f _ c hd he hk] at h
      simp only [List.mem_cons] at h
      rcases h with h | h | h | h
      · exact hhere (Or.inl (by rw [h])) hd
      · exact hhere (Or.inr (Or.inl (by rw [h]))) hd
      · exact hhere (Or.inr (Or.inr (by rw [h]))) hd
      · exact hrest _ h

/-- A scan pass that returns no error queries the cache for the full path of
every entry that is not a directory, in the order of the listing. -/
theorem scanEntries_queried {σ : Type} (I : FileCacheImpl σ) (os : OS) (scanDir : String) :
    ∀ (finfos : List FileInfo) (c : FileCache σ),
      (scanEntries I os scanDir finfos c).2.2 = none →
      queried (scanEntries I os scanDir finfos c).1 =
        (finfos.filter fun f => !f.IsDir).map fun f => os.Join scanDir f.Name := by
  intro finfos
  induction finfos with
  | nil => intro c _; simp [scanEntries, queried]
  | cons f rest ih =>
    intro c h
    rcases scanEntries_cases I os scanDir f c with hd | ⟨hd, e, he⟩ | ⟨hd, he, hk⟩ | ⟨hd, he, hk⟩
    · rw [scanEntries_dir I os scanDir f _ c hd] at h ⊢
      rw [List.filter_cons_of_neg (by simp [hd])]
      exact ih c h
    · rw [scanEntries_err I os scanDir f _ c hd e he] at h
      simp at h
    · rw [scanEntries_known I os scanDir f _ c hd he hk] at h ⊢
      rw [List.filter_cons_of_pos (by simp [hd])]
      have := ih _ h
      simp only [queried, List.filterMap_cons, List.map_cons] at this ⊢
      rw [this]
    · rw [scanEntries_new I os scanDir f _ c hd he hk] at h ⊢
      rw [List.filter_cons_of_pos (by simp [hd])]
      have := ih _ h
      simp only [queried, List.filterMap_cons, List.map_cons] at this ⊢
      rw [this]

/-! ## The scan loop -/

/-- A pass that finds the context cancelled returns its error at once. -/
theorem scanLoop_cancelled {σ : Type} (I : FileCacheImpl σ) (os : OS) (ctx : Context)
    (scanDir : String) (fuel pass : Nat) (c : FileCache σ) (tr : List (Step σ)) (e : Error)
    (hc : ctx pass = some e) :
    scanLoop I os ctx scanDir (fuel + 1) pass c tr = ⟨some e, tr, c⟩ := by
  rw [scanLoop]; simp only [hc]

/-- A pass whose listing fails returns the listing error after the listing. -/
theorem scanLoop_listErr {σ : Type} (I : FileCacheImpl σ) (os : OS) (ctx : Context)
    (scanDir : String) (fuel pass : Nat) (c : FileCache σ) (tr : List (Step σ)) (e : Error)
    (hc : ctx pass = none) (hl : os.ReadDir scanDir pass = .error e) :
    scanLoop I os ctx scanDir (fuel + 1) pass c tr =
      ⟨some e, tr ++ [⟨Event.readDir scanDir, c⟩], c⟩ := by
  rw [scanLoop]; simp only [hc, hl]

/-- A pass in which `Contains` returns an error returns that error. -/
theorem scanLoop_cacheErr {σ : Type} (I : FileCacheImpl σ) (os : OS) (ctx : Context)
    (scanDir : String) (fuel pass : Nat) (c : FileCache σ) (tr : List (Step σ)) (e : Error)
    (l : List FileInfo) (hc : ctx pass = none) (hl : os.ReadDir scanDir pass = .ok l)
    (he : (scanEntries I os scanDir l c).2.2 = some e) :
    scanLoop I os ctx scanDir (fuel + 1) pass c tr =
      ⟨some e, tr ++ ⟨Event.readDir scanDir, c⟩ :: (scanEntries I os scanDir l c).1,
        (scanEntries I os scanDir l c).2.1⟩ := by
  rw [scanLoop]; simp only [hc, hl, he]

/-- A pass without error sleeps and the loop goes on. -/
theorem scanLoop_pass {σ : Type} (I : FileCacheImpl σ) (os : OS) (ctx : Context)
    (scanDir : String) (fuel pass : Nat) (c : FileCache σ) (tr : List (Step σ))
    (l : List FileInfo) (hc : ctx pass = none) (hl : os.ReadDir scanDir pass = .ok l)
    (he : (scanEntries I os scanDir l c).2.2 = none) :
    scanLoop I os ctx scanDir (fuel + 1) pass c tr =
      scanLoop I os ctx scanDir fuel (pass + 1) (scanEntries I os scanDir l c).2.1
        (tr ++ ⟨Event.readDir scanDir, c⟩ :: (scanEntries I os scanDir l c).1 ++
          [⟨Event.sleep, (scanEntries I os scanDir l c).2.1⟩]) := by
  rw [scanLoop]; simp only [hc, hl, he]

/-- The four ways a scan pass goes. -/
theorem scanLoop_cases {σ : Type} (I : FileCacheImpl σ) (os : OS) (ctx : Context)
    (scanDir : String) (pass : Nat) (c : FileCache σ) :
    (∃ e, ctx pass = some e) ∨
    (ctx pass = none ∧ ∃ e, os.ReadDir scanDir pass = .error e) ∨
    (ctx pass = none ∧ ∃ l, os.ReadDir scanDir pass = .ok l ∧
      ∃ e, (scanEntries I os scanDir l c).2.2 = some e) ∨
    (ctx pass = none ∧ ∃ l, os.ReadDir scanDir pass = .ok l ∧
      (scanEntries I os scanDir l c).2.2 = none) := by
  cases hc : ctx pass with
  | some e => exact Or.inl ⟨e, rfl⟩
  | none =>
    right
    cases hl : os.ReadDir scanDir pass with
    | error e => exact Or.inl ⟨rfl, e, rfl⟩
    | ok l =>
      right
      cases he : (scanEntries I os scanDir l c).2.2 with
      | some e => exact Or.inl ⟨rfl, l, rfl, e, he⟩
      | none => exact Or.inr ⟨rfl, l, rfl, he⟩

/-- A loop still running after `a` passes goes on from where it stands. -/
theorem scanLoop_add {σ : Type} (I : FileCacheImpl σ) (os : OS) (ctx : Context)
    (scanDir : String) (b : Nat) :
    ∀ (a pass : Nat) (c : FileCache σ) (tr : List (Step σ)),
      (scanLoop I os ctx scanDir a pass c tr).ret = none →
      scanLoop I os ctx scanDir (a + b) pass c tr =
        scanLoop I os ctx scanDir b (pass + a) (scanLoop I os ctx scanDir a pass c tr).cache
          (scanLoop I os ctx scanDir a pass c tr).trace := by
  intro a
  induction a with
  | zero => intro pass c tr _; simp [scanLoop]
  | succ a ih =>
    intro pass c tr h
    have hab : a + 1 + b = (a + b) + 1 := by omega
    rw [hab]
    rcases scanLoop_cases I os ctx scanDir pass c with
      ⟨e, hc⟩ | ⟨hc, e, hl⟩ | ⟨hc, l, hl, e, he⟩ | ⟨hc, l, hl, he⟩
    · rw [scanLoop_cancelled I os ctx scanDir a pass c tr e hc] at h
      simp at h
    · rw [scanLoop_listErr I os ctx scanDir a pass c tr e hc hl] at h
      simp at h
    · rw [scanLoop_cacheErr I os ctx scanDir a pass c tr e l hc hl he] at h
      simp at h
    · rw [scanLoop_pass I os ctx scanDir a pass c tr l hc hl he] at h
      rw [scanLoop_pass I os ctx scanDir (a + b) pass c tr l hc hl he,
        scanLoop_pass I os ctx scanDir a pass c tr l hc hl he, ih _ _ _ h]
      congr 1
      omega

/-- A call still running after `i` passes has a Forager and goes on with pass `i`. -/
theorem ScanForFiles_add {σ : Type} (I : FileCacheImpl σ) (s : Scanner σ) (os : OS)
    (ctx : Option Context) (scanDir : String) (i b : Nat)
    (h : (s.ScanForFiles I os ctx scanDir i).ret = none) :
    s.ScanForFiles I os ctx scanDir (i + b) =
      scanLoop I os (orBackground ctx) scanDir b i (s.ScanForFiles I os ctx scanDir i).cache
        (s.ScanForFiles I os ctx scanDir i).trace := by
  unfold Scanner.ScanForFiles at h ⊢
  cases hf : s.Forager with
  | none => rw [hf] at h; simp at h
  | some f =>
    rw [hf] at h
    simp only at h ⊢
    rw [scanLoop_add I os (orBackground ctx) scanDir b i 0 _ _ h, Nat.zero_add]

/-- Watchers that call no Forager make a run without Forager calls. -/
theorem foragerCalls_nil {σ : Type} (s : Scanner σ) (polls : Nat → Nat → Poll)
    (fuel : Nat → Nat) (h : ∀ n p, (s.watch p (polls n) (fuel n)).foraged = []) :
    ∀ (ps : List String) (n : Nat), foragerCalls s polls fuel n ps = [] := by
  intro ps
  induction ps with
  | nil => intro n; rfl
  | cons q ps ih => intro n; rw [foragerCalls, h, ih]; rfl

/-! ## C3, C10, C7: configuration error, listing error, cancellation -/

/-- C3: `ScanForFiles` on a Scanner whose Forager is nil returns the error
"Forager is required", for every context, directory, cache and file system;
it has done nothing (no listing, no cache call, no watcher) and the cache is
as it was. -/
theorem nil_forager_fails_fast {σ : Type} (I : FileCacheImpl σ) (cache : Option σ)
    (cutoff : Int) (os : OS) (ctx : Option Context) (scanDir : String) (fuel : Nat) :
    (Scanner.ScanForFiles I ⟨none, cache, cutoff⟩ os ctx scanDir fuel).ret =
      some "Forager is required" ∧
    (Scanner.ScanForFiles I ⟨none, cache, cutoff⟩ os ctx scanDir fuel).trace = [] ∧
    (Scanner.ScanForFiles I ⟨none, cache, cutoff⟩ os ctx scanDir fuel).cache =
      (match cache with
        | some st => FileCache.custom st
        | none => FileCache.mapCache []) :=
  ⟨rfl, rfl, rfl⟩

/-- C10: if the scan is still running after `i` passes, the context is not
cancelled at pass `i` and the listing of pass `i` fails with `e`, then
`ScanForFiles` returns `e`: all it did in that pass is the one listing (no
second listing, no cache call, no watcher) and the cache is untouched. -/
theorem listing_error_is_fatal {σ : Type} (I : FileCacheImpl σ) (s : Scanner σ) (os : OS)
    (ctx : Option Context) (scanDir : String) (i : Nat) (e : Error)
    (hrun : (s.ScanForFiles I os ctx scanDir i).ret = none)
    (hctx : orBackground ctx i = none)
    (hlist : os.ReadDir scanDir i = .error e) :
    ∀ fuel, i < fuel →
      s.ScanForFiles I os ctx scanDir fuel =
        ⟨some e,
          (s.ScanForFiles I os ctx scanDir i).trace ++
            [⟨Event.readDir scanDir, (s.ScanForFiles I os ctx scanDir i).cache⟩],
          (s.ScanForFiles I os ctx scanDir i).cache⟩ := by
  intro fuel hf
  obtain ⟨d, rfl⟩ : ∃ d, fuel = i + (d + 1) := ⟨fuel - i - 1, by omega⟩
  rw [ScanForFiles_add I s os ctx scanDir i (d + 1) hrun,
    scanLoop_listErr I os _ scanDir d i _ _ e hctx hlist]

/-- C10 at a directory whose second listing fails. -/
theorem listing_error_is_fatal_witness :
    (exScanner.ScanForFiles exCacheAddFails exOSListFails none "d" 5).ret =
      some "permission denied" ∧
    (exScanner.ScanForFiles exCacheAddFails exOSListFails none "d" 5).trace.map (fun st => st.ev) =
      [Event.readDir "d", Event.contains "d/a.jpg", Event.add "d/a.jpg", Event.watch "d/a.jpg",
        Event.sleep, Event.readDir "d"] := by
  have h := listing_error_is_fatal exCacheAddFails exScanner exOSListFails none "d" 1
    "permission denied" (by decide) (by decide) rfl 5 (by decide)
  rw [h]
  exact ⟨rfl, by decide⟩

/-- C7: if the scan is still running after `i` passes and finds the context
cancelled with `e` at the head of pass `i`, then `ScanForFiles` returns `e`
and does nothing more (no further listing).  If every watcher finds the
context cancelled at some poll, with no earlier poll finding the file settled,
then no watcher calls the Forager, whatever the age of the file at the poll
that sees the cancellation, every watcher has returned once that poll is made,
and the run has no Forager call at all. -/
theorem cancellation_stops_scan_and_watchers {σ : Type} (I : FileCacheImpl σ) (s : Scanner σ)
    (os : OS) (ctx : Option Context) (scanDir : String) (i : Nat) (e : Error)
    (polls : Nat → Nat → Poll) (K : Nat → Nat)
    (hrun : (s.ScanForFiles I os ctx scanDir i).ret = none)
    (hctx : orBackground ctx i = some e)
    (hcancel : ∀ n, (polls n (K n)).ctxErr ≠ none)
    (hpre : ∀ n j, j < K n → ∀ fj, (polls n j).stat = .ok fj → (polls n j).ctxErr = none →
      (polls n j).now - fj.ModTime ≤
        (if 0 < s.FileInactvityCutoff then s.FileInactvityCutoff else 5 * 1000000000)) :
    (∀ fuel, i < fuel →
      s.ScanForFiles I os ctx scanDir fuel =
        ⟨some e, (s.ScanForFiles I os ctx scanDir i).trace,
          (s.ScanForFiles I os ctx scanDir i).cache⟩) ∧
    (∀ n fname fuel, (s.watch fname (polls n) fuel).foraged = [] ∧
      (K n < fuel → (s.watch fname (polls n) fuel).done = true)) ∧
    (∀ wfuel fuel, foragerCalls s polls wfuel 0
      (spawned (s.ScanForFiles I os ctx scanDir fuel).trace) = []) := by
  have hw : ∀ n fname fuel, (s.watch fname (polls n) fuel).foraged = [] ∧
      (K n < fuel → (s.watch fname (polls n) fuel).done = true) := by
    intro n fname fuel
    simp only [watch_eq_watchLoop]
    have hC := cutoff_pos s.FileInactvityCutoff
    generalize (if 0 < s.FileInactvityCutoff then s.FileInactvityCutoff else 5 * 1000000000) = C
      at hpre hC ⊢
    have hpre2 : ∀ j, j < K n → ∀ fj, (polls n (0 + j)).stat = .ok fj →
        (polls n (0 + j)).ctxErr = none → timeSince (polls n (0 + j)).now fj.ModTime ≤ C := by
      intro j hj fj h1 h2
      rw [Nat.zero_add] at h1 h2 ⊢
      exact timeSince_le_of_sub_le _ _ C (by unfold minDuration; omega) (hpre n j hj fj h1 h2)
    have := watchLoop_stops C fname (polls n) (K n) 0 hpre2
      (Or.inr (by simpa using hcancel n)) fuel
    exact ⟨this.1, fun h => (this.2 h).1⟩
  refine ⟨?_, hw, ?_⟩
  · intro fuel hf
    obtain ⟨d, rfl⟩ : ∃ d, fuel = i + (d + 1) := ⟨fuel - i - 1, by omega⟩
    rw [ScanForFiles_add I s os ctx scanDir i (d + 1) hrun,
      scanLoop_cancelled I os _ scanDir d i _ _ e hctx]
  · intro wfuel fuel
    exact foragerCalls_nil s polls wfuel (fun n p => (hw n p (wfuel n)).1) _ 0

/-- C7 at a context cancelled after the first pass, with watchers that see the
cancellation at their second poll, when the file is 100 seconds old. -/
theorem cancellation_stops_scan_and_watchers_witness :
    (exScanner.ScanForFiles exCacheAddFails exOS (some exCtx) "d" 9).ret =
      some "context canceled" ∧
    (exScanner.watch "d/a.jpg" (exPollsCancelled 0) 9).foraged = [] ∧
    foragerCalls exScanner exPollsCancelled (fun _ => 9) 0
      (spawned (exScanner.ScanForFiles exCacheAddFails exOS (some exCtx) "d" 9).trace) = [] := by
  have h := cancellation_stops_scan_and_watchers exCacheAddFails exScanner exOS (some exCtx) "d" 1
    "context canceled" exPollsCancelled (fun _ => 1) (by decide) (by decide)
    (by intro n; simp [exPollsCancelled])
    (by intro n j hj fj _ _; interval_cases j; simp_all [exPollsCancelled]; subst_vars; decide)
  refine ⟨?_, (h.2.1 0 "d/a.jpg" 9).1, h.2.2 (fun _ => 9) 9⟩
  rw [h.1 9 (by decide)]

/-! ## C5, C4: errors of the cache -/

/-- A listing of directories only does nothing. -/
theorem scanEntries_all_dirs {σ : Type} (I : FileCacheImpl σ) (os : OS) (scanDir : String)
    (c : FileCache σ) :
    ∀ (finfos : List FileInfo), (∀ f, f ∈ finfos → f.IsDir = true) →
      scanEntries I os scanDir finfos c = ([], c, none) := by
  intro finfos
  induction finfos with
  | nil => intro _; rfl
  | cons f rest ih =>
    intro h
    rw [scanEntries_dir I os scanDir f rest c (h f (List.mem_cons_self _ _))]
    exact ih fun g hg => h g (List.mem_cons_of_mem _ hg)

/-- The watchers started in two stretches of a trace. -/
theorem spawned_append {σ : Type} (a b : List (Step σ)) :
    spawned (a ++ b) = spawned a ++ spawned b := by
  simp [spawned, List.filterMap_append]

/-- The watchers a scan pass without error starts are those of the new files
of the listing, one each, in the order of the listing. -/
theorem spawned_scanEntries {σ : Type} (I : FileCacheImpl σ) (os : OS) (scanDir : String) :
    ∀ (finfos : List FileInfo) (c : FileCache σ),
      (scanEntries I os scanDir finfos c).2.2 = none →
      spawned (scanEntries I os scanDir finfos c).1 = newFiles I os scanDir finfos c := by
  intro finfos
  induction finfos with
  | nil => intro c _; rfl
  | cons f rest ih =>
    intro c h
    rcases scanEntries_cases I os scanDir f c with hd | ⟨hd, e, he⟩ | ⟨hd, he, hk⟩ | ⟨hd, he, hk⟩
    · rw [scanEntries_dir I os scanDir f rest c hd] at h ⊢
      rw [newFiles, if_pos hd]
      exact ih c h
    · rw [scanEntries_err I os scanDir f rest c hd e he] at h
      simp at h
    · rw [scanEntries_known I os scanDir f rest c hd he hk] at h ⊢
      rw [newFiles]
      simp only [hd, hk, Bool.false_eq_true, if_false, if_true]
      rw [← ih _ h]
      simp [spawned]
    · rw [scanEntries_new I os scanDir f rest c hd he hk] at h ⊢
      rw [newFiles]
      simp only [hd, hk, Bool.false_eq_true, if_false]
      rw [← ih _ h]
      simp [spawned]

/-- C5, as the code has it: in the first scan pass let the listing be
`pre ++ g :: post`, where the entries `pre` are processed without error and
`Contains` returns the error `e` for the file `g`.  Then `ScanForFiles` returns
exactly `e`; it has done the listing, the work on `pre` and the failing
`Contains` call and nothing after it (no further entry, no further pass), and
the watchers it started are exactly those of the new files among `pre` (the
files before `g` that the cache did not know when asked), one each: none at or
after the failing call, and none at all when no file comes before `g` in the
listing. -/
theorem contains_error_first_pass {σ : Type} (I : FileCacheImpl σ) (s : Scanner σ) (os : OS)
    (ctx : Option Context) (scanDir : String) (fg : Forager) (pre post : List FileInfo)
    (g : FileInfo) (e : Error)
    (hf : s.Forager = some fg)
    (hctx : orBackground ctx 0 = none)
    (hlist : os.ReadDir scanDir 0 = .ok (pre ++ g :: post))
    (hpre : (scanEntries I os scanDir pre s.existingFiles).2.2 = none)
    (hg : g.IsDir = false)
    (herr : (FileCache.Contains I (scanEntries I os scanDir pre s.existingFiles).2.1
      (os.Join scanDir g.Name)).2.2 = some e) :
    ∀ fuel, 0 < fuel →
      (s.ScanForFiles I os ctx scanDir fuel).ret = some e ∧
      (s.ScanForFiles I os ctx scanDir fuel).trace =
        ⟨Event.readDir scanDir, s.existingFiles⟩ ::
          (scanEntries I os scanDir pre s.existingFiles).1 ++
          [⟨Event.contains (os.Join scanDir g.Name),
            (FileCache.Contains I (scanEntries I os scanDir pre s.existingFiles).2.1
              (os.Join scanDir g.Name)).1⟩] ∧
      spawned (s.ScanForFiles I os ctx scanDir fuel).trace =
        newFiles I os scanDir pre s.existingFiles ∧
      ((∀ h, h ∈ pre → h.IsDir = true) →
        spawned (s.ScanForFiles I os ctx scanDir fuel).trace = []) := by
  intro fuel hfuel
  obtain ⟨d, rfl⟩ : ∃ d, fuel = d + 1 := ⟨fuel - 1, by omega⟩
  have hent : scanEntries I os scanDir (pre ++ g :: post) s.existingFiles =
      ((scanEntries I os scanDir pre s.existingFiles).1 ++
        [⟨Event.contains (os.Join scanDir g.Name),
          (FileCache.Contains I (scanEntries I os scanDir pre s.existingFiles).2.1
            (os.Join scanDir g.Name)).1⟩],
        (FileCache.Contains I (scanEntries I os scanDir pre s.existingFiles).2.1
            (os.Join scanDir g.Name)).1, some e) := by
    rw [scanEntries_append I os scanDir (g :: post) pre _ hpre,
      scanEntries_err I os scanDir g post _ hg e herr]
  have hres : s.ScanForFiles I os ctx scanDir (d + 1) =
      ⟨some e, [] ++ ⟨Event.readDir scanDir, s.existingFiles⟩ ::
        (scanEntries I os scanDir (pre ++ g :: post) s.existingFiles).1,
        (scanEntries I os scanDir (pre ++ g :: post) s.existingFiles).2.1⟩ := by
    unfold Scanner.ScanForFiles
    rw [hf]
    exact scanLoop_cacheErr I os _ scanDir d 0 _ [] e _ hctx hlist (by rw [hent])
  have hsp : spawned (s.ScanForFiles I os ctx scanDir (d + 1)).trace =
      spawned (scanEntries I os scanDir pre s.existingFiles).1 := by
    rw [hres, hent]
    simp [spawned, List.filterMap_append]
  refine ⟨by rw [hres], ?_, ?_, ?_⟩
  · rw [hres, hent]; simp
  · rw [hsp, spawned_scanEntries I os scanDir pre _ hpre]
  · intro hdirs
    rw [hsp, scanEntries_all_dirs I os scanDir _ pre hdirs]
    rfl

/-- C5 at a listing with a directory, the file `k.jpg` the cache knows, the
new file `a.jpg`, the file `b.jpg` for which `Contains` fails, and `c.jpg`:
the error is returned, the one watcher is that of `d/a.jpg`, and `d/c.jpg` is
not looked at. -/
theorem contains_error_first_pass_witness :
    (exScannerKnown.ScanForFiles exCacheList exOSKnown none "d" 3).ret =
      some "cache is down" ∧
    spawned (exScannerKnown.ScanForFiles exCacheList exOSKnown none "d" 3).trace =
      ["d/a.jpg"] ∧
    (exScannerKnown.ScanForFiles exCacheList exOSKnown none "d" 3).trace.map
      (fun st => st.ev) =
      [Event.readDir "d", Event.contains "d/k.jpg", Event.contains "d/a.jpg",
        Event.add "d/a.jpg", Event.watch "d/a.jpg", Event.contains "d/b.jpg"] := by
  have h := contains_error_first_pass exCacheList exScannerKnown exOSKnown none "d" ⟨0⟩
    [⟨"sub", true, 0⟩, ⟨"k.jpg", false, 0⟩, ⟨"a.jpg", false, 0⟩] [⟨"c.jpg", false, 0⟩]
    ⟨"b.jpg", false, 0⟩ "cache is down" rfl rfl rfl (by decide) rfl (by decide) 3 (by decide)
  refine ⟨h.1, ?_, ?_⟩
  · rw [h.2.2.1]; decide
  · rw [h.2.1]; decide

/-- C5 as stated fails: the listing is `a.jpg`, `b.jpg`, the cache does not
know `d/a.jpg` and its `Contains` fails for `d/b.jpg`.  The first pass returns
the error of `Contains`, and yet a watcher was started, for `d/a.jpg`. -/
theorem contains_error_after_watcher_started :
    (exScannerCustom.ScanForFiles exCacheContainsFails exOS none "d" 1).ret =
      some "cache is down" ∧
    (exScannerCustom.ScanForFiles exCacheContainsFails exOS none "d" 1).trace.map
      (fun st => st.ev) =
      [Event.readDir "d", Event.contains "d/a.jpg", Event.add "d/a.jpg",
        Event.watch "d/a.jpg", Event.contains "d/b.jpg"] ∧
    spawned (exScannerCustom.ScanForFiles exCacheContainsFails exOS none "d" 1).trace ≠ [] := by
  decide

/-- C4 fails on the code: the listing is `a.jpg`, `b.jpg`, the cache knows no
path and its `Add` returns an error each time.  `ScanForFiles` has not
returned after two passes: the error of `Add` is dropped, a watcher is started
for each file, the pass goes on, and the next pass does it all again. -/
theorem add_error_is_dropped :
    (exScannerCustom.ScanForFiles exCacheAddFails exOS none "d" 2).ret = none ∧
    (exScannerCustom.ScanForFiles exCacheAddFails exOS none "d" 2).trace.map
      (fun st => st.ev) =
      [Event.readDir "d", Event.contains "d/a.jpg", Event.add "d/a.jpg", Event.watch "d/a.jpg",
        Event.contains "d/b.jpg", Event.add "d/b.jpg", Event.watch "d/b.jpg", Event.sleep,
        Event.readDir "d", Event.contains "d/a.jpg", Event.add "d/a.jpg", Event.watch "d/a.jpg",
        Event.contains "d/b.jpg", Event.add "d/b.jpg", Event.watch "d/b.jpg", Event.sleep] ∧
    (exCacheAddFails.Add () "d/a.jpg").2 = some "cache is full" := by
  decide

/-! ## C8: directories -/

/-- A scan pass reads the file system only through `path.Join`. -/
theorem scanEntries_congr {σ : Type} (I : FileCacheImpl σ) (os1 os2 : OS) (scanDir : String)
    (h : os1.Join = os2.Join) :
    ∀ (finfos : List FileInfo) (c : FileCache σ),
      scanEntries I os1 scanDir finfos c = scanEntries I os2 scanDir finfos c := by
  intro finfos
  induction finfos with
  | nil => intro c; rfl
  | cons f rest ih =>
    intro c
    rw [scanEntries, scanEntries]
    simp only [h, ih]

/-- Taking the directories out of every listing changes nothing in the scan loop. -/
theorem scanLoop_withoutDirs {σ : Type} (I : FileCacheImpl σ) (os : OS) (ctx : Context)
    (scanDir : String) :
    ∀ (fuel pass : Nat) (c : FileCache σ) (tr : List (Step σ)),
      scanLoop I os.withoutDirs ctx scanDir fuel pass c tr =
        scanLoop I os ctx scanDir fuel pass c tr := by
  intro fuel
  induction fuel with
  | zero => intro pass c tr; rfl
  | succ fuel ih =>
    intro pass c tr
    have hent : ∀ l, scanEntries I os.withoutDirs scanDir (l.filter fun f => !f.IsDir) c =
        scanEntries I os scanDir l c := by
      intro l
      rw [scanEntries_congr I os.withoutDirs os scanDir rfl, scanEntries_filter]
    rcases scanLoop_cases I os ctx scanDir pass c with
      ⟨e, hc⟩ | ⟨hc, e, hl⟩ | ⟨hc, l, hl, e, he⟩ | ⟨hc, l, hl, he⟩
    · rw [scanLoop_cancelled I os ctx scanDir fuel pass c tr e hc,
        scanLoop_cancelled I os.withoutDirs ctx scanDir fuel pass c tr e hc]
    · have hl2 : os.withoutDirs.ReadDir scanDir pass = .error e := by
        simp only [OS.withoutDirs, hl]
      rw [scanLoop_listErr I os ctx scanDir fuel pass c tr e hc hl,
        scanLoop_listErr I os.withoutDirs ctx scanDir fuel pass c tr e hc hl2]
    · have hl2 : os.withoutDirs.ReadDir scanDir pass = .ok (l.filter fun f => !f.IsDir) := by
        simp only [OS.withoutDirs, hl]
      rw [scanLoop_cacheErr I os ctx scanDir fuel pass c tr e l hc hl he,
        scanLoop_cacheErr I os.withoutDirs ctx scanDir fuel pass c tr e _ hc hl2
          (by rw [hent]; exact he), hent]
    · have hl2 : os.withoutDirs.ReadDir scanDir pass = .ok (l.filter fun f => !f.IsDir) := by
        simp only [OS.withoutDirs, hl]
      rw [scanLoop_pass I os ctx scanDir fuel pass c tr l hc hl he,
        scanLoop_pass I os.withoutDirs ctx scanDir fuel pass c tr _ hc hl2
          (by rw [hent]; exact he), hent, ih]

/-- Every path the scan loop queries, adds or starts a watcher for, beyond the
trace it starts from, is the scan directory joined with the name of an entry,
not a directory, of one of the listings. -/
theorem scanLoop_paths {σ : Type} (I : FileCacheImpl σ) (os : OS) (ctx : Context)
    (scanDir : String) (st : Step σ) (p : String)
    (hp : st.ev = Event.contains p ∨ st.ev = Event.add p ∨ st.ev = Event.watch p) :
    ∀ (fuel pass : Nat) (c : FileCache σ) (tr : List (Step σ)),
      st ∈ (scanLoop I os ctx scanDir fuel pass c tr).trace →
      st ∈ tr ∨ ∃ i l f, os.ReadDir scanDir i = .ok l ∧ f ∈ l ∧ f.IsDir = false ∧
        p = os.Join scanDir f.Name := by
  have hrd : ∀ c : FileCache σ, st ≠ ⟨Event.readDir scanDir, c⟩ := by
    intro c h; rw [h] at hp; simp at hp
  have hsl : ∀ c : FileCache σ, st ≠ ⟨Event.sleep, c⟩ := by
    intro c h; rw [h] at hp; simp at hp
  intro fuel
  induction fuel with
  | zero => intro pass c tr h; exact Or.inl h
  | succ fuel ih =>
    intro pass c tr h
    rcases scanLoop_cases I os ctx scanDir pass c with
      ⟨e, hc⟩ | ⟨hc, e, hl⟩ | ⟨hc, l, hl, e, he⟩ | ⟨hc, l, hl, he⟩
    · rw [scanLoop_cancelled I os ctx scanDir fuel pass c tr e hc] at h
      exact Or.inl h
    · rw [scanLoop_listErr I os ctx scanDir fuel pass c tr e hc hl] at h
      simp only [List.mem_append, List.mem_singleton] at h
      rcases h with h | h
      · exact Or.inl h
      · exact absurd h (hrd c)
    · rw [scanLoop_cacheErr I os ctx scanDir fuel pass c tr e l hc hl he] at h
      simp only [List.mem_append, List.mem_cons] at h
      rcases h with h | h | h
      · exact Or.inl h
      · exact absurd h (hrd c)
      · obtain ⟨f, hf, hd, hpf⟩ := scanEntries_paths I os scanDir l c st p h hp
        exact Or.inr ⟨pass, l, f, hl, hf, hd, hpf⟩
    · rw [scanLoop_pass I os ctx scanDir fuel pass c tr l hc hl he] at h
      rcases ih _ _ _ h with h | h
      · simp only [List.mem_append, List.mem_cons, List.mem_singleton, List.cons_append,
          List.not_mem_nil, or_false] at h
        rcases h with (h | h | h) | h
        · exact Or.inl h
        · exact absurd h (hrd c)
        · obtain ⟨f, hf, hd, hpf⟩ := scanEntries_paths I os scanDir l c st p h hp
          exact Or.inr ⟨pass, l, f, hl, hf, hd, hpf⟩
        · exact absurd h (hsl _)
      · exact Or.inr h

/-- The paths queried in two stretches of a trace. -/
theorem queried_append {σ : Type} (a b : List (Step σ)) :
    queried (a ++ b) = queried a ++ queried b := by
  simp [queried, List.filterMap_append]

/-- A path with a watcher has a step of the trace that started it. -/
theorem mem_spawned {σ : Type} (tr : List (Step σ)) (p : String) (h : p ∈ spawned tr) :
    ∃ st, st ∈ tr ∧ st.ev = Event.watch p := by
  unfold spawned at h
  rw [List.mem_filterMap] at h
  obtain ⟨st, hst, hev⟩ := h
  refine ⟨st, hst, ?_⟩
  revert hev
  cases st.ev <;> simp

/-- C8: directories are skipped entirely.  Taking the directory entries out of
every listing changes nothing in what `ScanForFiles` does, in the cache or in
what it returns.  Every path passed to `Contains` or `Add`, or given a
watcher, or passed to the Forager, is the scan directory joined with the name
of an entry of some listing that is not a directory, whatever the modification
times.  And a pass that ends without error queries the cache for the full path
(scan directory joined with entry name) of each entry that is not a directory,
in the order of the listing. -/
theorem directories_are_skipped {σ : Type} (I : FileCacheImpl σ) (s : Scanner σ) (os : OS)
    (ctx : Option Context) (scanDir : String) (fuel : Nat) :
    s.ScanForFiles I os.withoutDirs ctx scanDir fuel = s.ScanForFiles I os ctx scanDir fuel ∧
    (∀ st p, st ∈ (s.ScanForFiles I os ctx scanDir fuel).trace →
      st.ev = Event.contains p ∨ st.ev = Event.add p ∨ st.ev = Event.watch p →
      ∃ i l f, os.ReadDir scanDir i = .ok l ∧ f ∈ l ∧ f.IsDir = false ∧
        p = os.Join scanDir f.Name) ∧
    (∀ polls wfuel p,
      p ∈ foragerCalls s polls wfuel 0 (spawned (s.ScanForFiles I os ctx scanDir fuel).trace) →
      ∃ i l f, os.ReadDir scanDir i = .ok l ∧ f ∈ l ∧ f.IsDir = false ∧
        p = os.Join scanDir f.Name) ∧
    (∀ l, (s.ScanForFiles I os ctx scanDir fuel).ret = none →
      (s.ScanForFiles I os ctx scanDir (fuel + 1)).ret = none →
      os.ReadDir scanDir fuel = .ok l →
      queried (s.ScanForFiles I os ctx scanDir (fuel + 1)).trace =
        queried (s.ScanForFiles I os ctx scanDir fuel).trace ++
          (l.filter fun f => !f.IsDir).map fun f => os.Join scanDir f.Name) := by
  have hpaths : ∀ st p, st ∈ (s.ScanForFiles I os ctx scanDir fuel).trace →
      st.ev = Event.contains p ∨ st.ev = Event.add p ∨ st.ev = Event.watch p →
      ∃ i l f, os.ReadDir scanDir i = .ok l ∧ f ∈ l ∧ f.IsDir = false ∧
        p = os.Join scanDir f.Name := by
    intro st p hst hp
    unfold Scanner.ScanForFiles at hst
    cases hf : s.Forager with
    | none => rw [hf] at hst; simp at hst
    | some fg =>
      rw [hf] at hst
      rcases scanLoop_paths I os _ scanDir st p hp fuel 0 _ [] hst with h | h
      · simp at h
      · exact h
  refine ⟨?_, hpaths, ?_, ?_⟩
  · unfold Scanner.ScanForFiles
    cases s.Forager with
    | none => rfl
    | some fg => exact scanLoop_withoutDirs I os _ scanDir fuel 0 _ []
  · intro polls wfuel p hp
    have h1 := foragerCalls_count s polls wfuel p
      (spawned (s.ScanForFiles I os ctx scanDir fuel).trace) 0
    have h2 : 0 < (foragerCalls s polls wfuel 0
        (spawned (s.ScanForFiles I os ctx scanDir fuel).trace)).count p :=
      List.count_pos_iff.mpr hp
    have h3 : p ∈ spawned (s.ScanForFiles I os ctx scanDir fuel).trace :=
      List.count_pos_iff.mp (by omega)
    obtain ⟨st, hst, hev⟩ := mem_spawned _ p h3
    exact hpaths st p hst (Or.inr (Or.inr hev))
  · intro l hrun hnext hl
    rw [ScanForFiles_add I s os ctx scanDir fuel 1 hrun] at hnext ⊢
    rcases scanLoop_cases I os (orBackground ctx) scanDir fuel
        (s.ScanForFiles I os ctx scanDir fuel).cache with
      ⟨e, hc⟩ | ⟨hc, e, hl2⟩ | ⟨hc, l2, hl2, e, he⟩ | ⟨hc, l2, hl2, he⟩
    · rw [scanLoop_cancelled I os _ scanDir 0 fuel _ _ e hc] at hnext
      simp at hnext
    · rw [scanLoop_listErr I os _ scanDir 0 fuel _ _ e hc hl2] at hnext
      simp at hnext
    · rw [scanLoop_cacheErr I os _ scanDir 0 fuel _ _ e l2 hc hl2 he] at hnext
      simp at hnext
    · rw [hl] at hl2
      cases hl2
      rw [scanLoop_pass I os _ scanDir 0 fuel _ _ l hc hl he]
      simp only [scanLoop, queried_append, List.cons_append]
      rw [← scanEntries_queried I os scanDir l _ he]
      simp [queried]

/-! ## C1: the default cache -/

/-- One scan pass on the `mapCache` with keys `m`: it returns no error, the
cache only grows, and the watchers it starts are for different paths, none of
them in `m`, each in the cache from the moment the watcher is started. -/
theorem scanEntries_mapCache {σ : Type} (I : FileCacheImpl σ) (os : OS) (scanDir : String) :
    ∀ (finfos : List FileInfo) (m : List String),
      (scanEntries I os scanDir finfos (FileCache.mapCache m)).2.2 = none ∧
      ∃ m2, (scanEntries I os scanDir finfos (FileCache.mapCache m)).2.1 = FileCache.mapCache m2 ∧
        (∀ p, p ∈ m → p ∈ m2) ∧
        (spawned (scanEntries I os scanDir finfos (FileCache.mapCache m)).1).Nodup ∧
        (∀ p, p ∈ spawned (scanEntries I os scanDir finfos (FileCache.mapCache m)).1 →
          p ∉ m ∧ p ∈ m2) ∧
        (∀ st p, st ∈ (scanEntries I os scanDir finfos (FileCache.mapCache m)).1 →
          st.ev = Event.watch p → (st.cache.Contains I p).2.1 = true) := by
  intro finfos
  induction finfos with
  | nil =>
    intro m
    exact ⟨rfl, m, rfl, fun _ h => h, by simp [scanEntries, spawned],
      by simp [scanEntries, spawned], by simp [scanEntries]⟩
  | cons f rest ih =>
    intro m
    have hC : FileCache.Contains I (FileCache.mapCache m) (os.Join scanDir f.Name) =
        (FileCache.mapCache m, decide (os.Join scanDir f.Name ∈ m), none) := rfl
    have hA : FileCache.Add I (FileCache.mapCache m) (os.Join scanDir f.Name) =
        (FileCache.mapCache (m.insert (os.Join scanDir f.Name)), none) := rfl
    rcases scanEntries_cases I os scanDir f (FileCache.mapCache m) with
      hd | ⟨hd, e, he⟩ | ⟨hd, he, hk⟩ | ⟨hd, he, hk⟩
    · rw [scanEntries_dir I os scanDir f rest _ hd]
      exact ih m
    · rw [hC] at he; simp at he
    · rw [scanEntries_known I os scanDir f rest _ hd he hk]
      simp only [hC]
      obtain ⟨h1, m2, h2, h3, h4, h5, h6⟩ := ih m
      refine ⟨h1, m2, h2, h3, ?_, ?_, ?_⟩
      · simpa [spawned] using h4
      · intro p hp
        exact h5 p (by simpa [spawned] using hp)
      · intro st p hst hev
        simp only [List.mem_cons] at hst
        rcases hst with hst | hst
        · rw [hst] at hev; simp at hev
        · exact h6 st p hst hev
    · rw [scanEntries_new I os scanDir f rest _ hd he hk]
      simp only [hC, hA]
      rw [hC] at hk
      have hnot : os.Join scanDir f.Name ∉ m := by simpa using hk
      obtain ⟨h1, m2, h2, h3, h4, h5, h6⟩ := ih (m.insert (os.Join scanDir f.Name))
      have hsp : ∀ t : List (Step σ),
          spawned (⟨Event.contains (os.Join scanDir f.Name), FileCache.mapCache m⟩ ::
            ⟨Event.add (os.Join scanDir f.Name),
              FileCache.mapCache (m.insert (os.Join scanDir f.Name))⟩ ::
            ⟨Event.watch (os.Join scanDir f.Name),
              FileCache.mapCache (m.insert (os.Join scanDir f.Name))⟩ :: t) =
          os.Join scanDir f.Name :: spawned t := by
        intro t; simp [spawned]
      refine ⟨h1, m2, h2, ?_, ?_, ?_, ?_⟩
      · intro p hp
        exact h3 p (List.mem_insert_of_mem hp)
      · rw [hsp, List.nodup_cons]
        refine ⟨fun hmem => (h5 _ hmem).1 (List.mem_insert_self _ _), h4⟩
      · intro p hp
        rw [hsp, List.mem_cons] at hp
        rcases hp with hp | hp
        · rw [hp]
          exact ⟨hnot, h3 _ (List.mem_insert_self _ _)⟩
        · exact ⟨fun hm => (h5 p hp).1 (List.mem_insert_of_mem hm), (h5 p hp).2⟩
      · intro st p hst hev
        simp only [List.mem_cons] at hst
        rcases hst with hst | hst | hst | hst
        · rw [hst] at hev; simp at hev
        · rw [hst] at hev; simp at hev
        · rw [hst] at hev ⊢
          have hp : os.Join scanDir f.Name = p := by simpa using hev
          rw [← hp]
          simp [FileCache.Contains, mapCache.Contains]
        · exact h6 st p hst hev

/-- The scan loop on the `mapCache`: if the watchers of the trace so far are
for different paths, all in the cache, each in the cache from the moment the
watcher was started, the same holds of the trace at the end. -/
theorem scanLoop_mapCache {σ : Type} (I : FileCacheImpl σ) (os : OS) (ctx : Context)
    (scanDir : String) :
    ∀ (fuel pass : Nat) (m : List String) (tr : List (Step σ)),
      (spawned tr).Nodup → (∀ p, p ∈ spawned tr → p ∈ m) →
      (∀ st p, st ∈ tr → st.ev = Event.watch p → (st.cache.Contains I p).2.1 = true) →
      (spawned (scanLoop I os ctx scanDir fuel pass (FileCache.mapCache m) tr).trace).Nodup ∧
      (∀ st p, st ∈ (scanLoop I os ctx scanDir fuel pass (FileCache.mapCache m) tr).trace →
        st.ev = Event.watch p → (st.cache.Contains I p).2.1 = true) := by
  intro fuel
  induction fuel with
  | zero => intro pass m tr h1 _ h3; exact ⟨h1, h3⟩
  | succ fuel ih =>
    intro pass m tr h1 h2 h3
    rcases scanLoop_cases I os ctx scanDir pass (FileCache.mapCache m) with
      ⟨e, hc⟩ | ⟨hc, e, hl⟩ | ⟨hc, l, hl, e, he⟩ | ⟨hc, l, hl, he⟩
    · rw [scanLoop_cancelled I os ctx scanDir fuel pass _ tr e hc]
      exact ⟨h1, h3⟩
    · rw [scanLoop_listErr I os ctx scanDir fuel pass _ tr e hc hl]
      constructor
      · rw [spawned_append]
        simpa [spawned] using h1
      · intro st p hst hev
        simp only [List.mem_append, List.mem_singleton] at hst
        rcases hst with hst | hst
        · exact h3 st p hst hev
        · rw [hst] at hev; simp at hev
    · rw [(scanEntries_mapCache I os scanDir l m).1] at he
      simp at he
    · rw [scanLoop_pass I os ctx scanDir fuel pass _ tr l hc hl he]
      obtain ⟨-, m2, e2, e3, e4, e5, e6⟩ := scanEntries_mapCache I os scanDir l m
      rw [e2]
      have hsp : spawned (tr ++ ⟨Event.readDir scanDir, FileCache.mapCache m⟩ ::
          (scanEntries I os scanDir l (FileCache.mapCache m)).1 ++
          [⟨Event.sleep, FileCache.mapCache m2⟩]) =
          spawned tr ++ spawned (scanEntries I os scanDir l (FileCache.mapCache m)).1 := by
        rw [spawned_append, spawned_append]
        simp [spawned]
      apply ih
      · rw [hsp]
        exact List.Nodup.append h1 e4 (fun p hp1 hp2 => (e5 p hp2).1 (h2 p hp1))
      · intro p hp
        rw [hsp, List.mem_append] at hp
        rcases hp with hp | hp
        · exact e3 p (h2 p hp)
        · exact (e5 p hp).2
      · intro st p hst hev
        simp only [List.mem_append, List.mem_cons, List.mem_singleton, List.not_mem_nil,
          or_false] at hst
        rcases hst with (hst | hst | hst) | hst
        · exact h3 st p hst hev
        · rw [hst] at hev; simp at hev
        · exact e6 st p hst hev
        · rw [hst] at hev; simp at hev

/-- C1: in a run of `ScanForFiles` on the default cache, whatever the listings
of its passes are, at most one watcher is started for a full path; when a
watcher is started for a path, `Contains` of the cache already answers true
for that path; and the Forager is called at most once for a path, whatever the
watchers read at their polls. -/
theorem default_cache_one_watcher_per_path {σ : Type} (I : FileCacheImpl σ)
    (forager : Option Forager) (cutoff : Int) (os : OS) (ctx : Option Context)
    (scanDir : String) (fuel : Nat) :
    (∀ p, (spawned
      (Scanner.ScanForFiles I ⟨forager, none, cutoff⟩ os ctx scanDir fuel).trace).count p ≤ 1) ∧
    (∀ st p, st ∈ (Scanner.ScanForFiles I ⟨forager, none, cutoff⟩ os ctx scanDir fuel).trace →
      st.ev = Event.watch p → (st.cache.Contains I p).2.1 = true) ∧
    (∀ polls wfuel p, (foragerCalls (σ := σ) ⟨forager, none, cutoff⟩ polls wfuel 0 (spawned
      (Scanner.ScanForFiles I ⟨forager, none, cutoff⟩ os ctx scanDir fuel).trace)).count p ≤ 1) := by
  have key : (spawned
        (Scanner.ScanForFiles I ⟨forager, none, cutoff⟩ os ctx scanDir fuel).trace).Nodup ∧
      (∀ st p, st ∈ (Scanner.ScanForFiles I ⟨forager, none, cutoff⟩ os ctx scanDir fuel).trace →
        st.ev = Event.watch p → (st.cache.Contains I p).2.1 = true) := by
    unfold Scanner.ScanForFiles
    cases forager with
    | none => simp [spawned]
    | some fg =>
      exact scanLoop_mapCache I os _ scanDir fuel 0 [] [] (by simp [spawned])
        (by simp [spawned]) (by simp)
  have hcount : ∀ p, (spawned
      (Scanner.ScanForFiles I ⟨forager, none, cutoff⟩ os ctx scanDir fuel).trace).count p ≤ 1 :=
    fun p => List.nodup_iff_count_le_one.mp key.1 p
  refine ⟨hcount, key.2, ?_⟩
  intro polls wfuel p
  exact le_trans (foragerCalls_count _ polls wfuel p _ 0) (hcount p)

/-- C1 at a directory with two files, listed in each of three passes: one
watcher for each file, started with the path in the cache. -/
theorem default_cache_one_watcher_per_path_witness :
    (spawned (exScanner.ScanForFiles exCacheAddFails exOS none "d" 3).trace).count "d/a.jpg" ≤ 1 ∧
    (FileCache.Contains exCacheAddFails (FileCache.mapCache ["d/a.jpg"]) "d/a.jpg").2.1 = true ∧
    (foragerCalls exScanner (fun _ => exPolls) (fun _ => 9) 0
      (spawned (exScanner.ScanForFiles exCacheAddFails exOS none "d" 3).trace)).count "d/a.jpg" ≤ 1 ∧
    spawned (exScanner.ScanForFiles exCacheAddFails exOS none "d" 3).trace =
      ["d/a.jpg", "d/b.jpg"] :=
  ⟨(default_cache_one_watcher_per_path exCacheAddFails (some ⟨0⟩) (2 * Second) exOS none "d" 3).1
      "d/a.jpg",
    (default_cache_one_watcher_per_path exCacheAddFails (some ⟨0⟩) (2 * Second) exOS none "d" 3).2.1
      ⟨Event.watch "d/a.jpg", FileCache.mapCache ["d/a.jpg"]⟩ "d/a.jpg" (by decide) rfl,
    (default_cache_one_watcher_per_path exCacheAddFails (some ⟨0⟩) (2 * Second) exOS none "d" 3).2.2
      (fun _ => exPolls) (fun _ => 9) "d/a.jpg",
    by decide⟩

/-- C8 at a listing with the file `a.jpg` and the directory `sub`: the path
with a watcher comes from a file entry, and the first pass queries `d/a.jpg` only. -/
theorem directories_are_skipped_witness :
    (∃ i l f, exOSListFails.ReadDir "d" i = .ok l ∧ f ∈ l ∧ f.IsDir = false ∧
      "d/a.jpg" = exOSListFails.Join "d" f.Name) ∧
    queried (exScannerCustom.ScanForFiles exCacheAddFails exOSListFails none "d" 1).trace =
      ["d/a.jpg"] := by
  have h := directories_are_skipped exCacheAddFails exScannerCustom exOSListFails none "d"
  refine ⟨(h 1).2.1 ⟨Event.watch "d/a.jpg", FileCache.custom ()⟩ "d/a.jpg" (by decide)
    (Or.inr (Or.inr rfl)), ?_⟩
  rw [(h 0).2.2.2 [⟨"a.jpg", false, 0⟩, ⟨"sub", true, 0⟩] (by decide) (by decide) rfl]
  decide

end goforage
